import Mathlib

set_option autoImplicit false

/-!
Verification of the Smart-Warehouse-Simulator core: the cached A* pathfinder,
worker loop and congestion model of `src/core/sim_engine.py`, and the layout
validators of `src/utils/advanced_layout_optimizer.py` and
`src/utils/layout_validator.py`.  Python `(x, y)` integer tuples are embedded
as `ℤ × ℤ`; each `heapq` frontier is embedded as a list popped at its minimum
under the exact tuple comparison Python applies to the pushed entries (entries
that compare equal under that comparison are identical values, so which of
them `heapq` yields is observationally irrelevant).
-/

namespace WarehouseSim

/-- A grid position, Python's `(x, y)` integer tuple. -/
abbrev Pos : Type := ℤ × ℤ

/-- Manhattan distance, the `heuristic` of both A* implementations. -/
def heuristic (a b : Pos) : ℤ := |a.1 - b.1| + |a.2 - b.2|

/-- Python's bounds test `0 <= x < width and 0 <= y < height`. -/
def inB (w h : ℤ) (p : Pos) : Prop := 0 ≤ p.1 ∧ p.1 < w ∧ 0 ≤ p.2 ∧ p.2 < h

instance (w h : ℤ) (p : Pos) : Decidable (inB w h p) := by unfold inB; exact inferInstance

/-- Three-way integer comparison, the primitive of Python tuple comparison. -/
def cmpInt (a b : ℤ) : Ordering := if a < b then .lt else if b < a then .gt else .eq

/-- Lexicographic combination of two comparators: Python tuple comparison. -/
def cmpLex {α β : Type} (c₁ : α → α → Ordering) (c₂ : β → β → Ordering)
    (x y : α × β) : Ordering := (c₁ x.1 y.1).then (c₂ x.2 y.2)

/-- Lexicographic list comparison: Python list comparison. -/
def cmpList {α : Type} (c : α → α → Ordering) : List α → List α → Ordering
  | [], [] => .eq
  | [], _ :: _ => .lt
  | _ :: _, [] => .gt
  | a :: as, b :: bs => (c a b).then (cmpList c as bs)

/-- Positions compare as Python tuples `(x, y)`. -/
def cmpPos : Pos → Pos → Ordering := cmpLex cmpInt cmpInt

/-- Laws making a comparator a linear-order test. -/
structure LawfulCmp {α : Type} (c : α → α → Ordering) : Prop where
  eq_iff : ∀ a b, c a b = .eq ↔ a = b
  swap_eq : ∀ a b, c a b = (c b a).swap
  lt_trans : ∀ {a b d}, c a b = .lt → c b d = .lt → c a d = .lt

theorem then_eq_eq {o₁ o₂ : Ordering} : o₁.then o₂ = .eq ↔ o₁ = .eq ∧ o₂ = .eq := by
  cases o₁ <;> simp [Ordering.then]

theorem then_eq_lt {o₁ o₂ : Ordering} :
    o₁.then o₂ = .lt ↔ o₁ = .lt ∨ (o₁ = .eq ∧ o₂ = .lt) := by
  cases o₁ <;> simp [Ordering.then]

theorem then_eq_gt {o₁ o₂ : Ordering} :
    o₁.then o₂ = .gt ↔ o₁ = .gt ∨ (o₁ = .eq ∧ o₂ = .gt) := by
  cases o₁ <;> simp [Ordering.then]

theorem then_swap {o₁ o₂ : Ordering} : (o₁.then o₂).swap = o₁.swap.then o₂.swap := by
  cases o₁ <;> cases o₂ <;> rfl

theorem cmpInt_eq_lt {a b : ℤ} : cmpInt a b = .lt ↔ a < b := by
  unfold cmpInt
  by_cases h : a < b
  · simp [h]
  · by_cases h' : b < a <;> simp [h, h']

theorem cmpInt_eq_eq {a b : ℤ} : cmpInt a b = .eq ↔ a = b := by
  unfold cmpInt
  by_cases h : a < b
  · simp [h]; omega
  · by_cases h' : b < a <;> simp [h, h'] <;> omega

theorem cmpInt_eq_gt {a b : ℤ} : cmpInt a b = .gt ↔ b < a := by
  unfold cmpInt
  by_cases h : a < b
  · simp [h]; omega
  · by_cases h' : b < a <;> simp [h, h']

theorem lawful_cmpInt : LawfulCmp cmpInt := by
  refine ⟨fun a b => cmpInt_eq_eq, fun a b => ?_, fun {a b d} h₁ h₂ => ?_⟩
  · rcases lt_trichotomy a b with h | h | h
    · rw [cmpInt_eq_lt.mpr h, cmpInt_eq_gt.mpr h]; rfl
    · rw [cmpInt_eq_eq.mpr h, cmpInt_eq_eq.mpr h.symm]; rfl
    · rw [cmpInt_eq_gt.mpr h, cmpInt_eq_lt.mpr h]; rfl
  · rw [cmpInt_eq_lt] at *; omega

theorem LawfulCmp.lex {α β : Type} {c₁ : α → α → Ordering} {c₂ : β → β → Ordering}
    (h₁ : LawfulCmp c₁) (h₂ : LawfulCmp c₂) : LawfulCmp (cmpLex c₁ c₂) := by
  refine ⟨fun a b => ?_, fun a b => ?_, fun {a b d} hab hbd => ?_⟩
  · simp only [cmpLex, then_eq_eq, h₁.eq_iff, h₂.eq_iff]
    constructor
    · rintro ⟨hx, hy⟩; exact Prod.ext hx hy
    · rintro rfl; exact ⟨rfl, rfl⟩
  · simp only [cmpLex, then_swap, ← h₁.swap_eq, ← h₂.swap_eq]
  · simp only [cmpLex, then_eq_lt] at *
    rcases hab with hab | ⟨hab, hab'⟩ <;> rcases hbd with hbd | ⟨hbd, hbd'⟩
    · exact Or.inl (h₁.lt_trans hab hbd)
    · rw [h₁.eq_iff] at hbd; rw [hbd] at hab; exact Or.inl hab
    · rw [h₁.eq_iff] at hab; rw [hab]; exact Or.inl hbd
    · rw [h₁.eq_iff] at hab; rw [h₁.eq_iff] at hbd
      refine Or.inr ⟨?_, h₂.lt_trans hab' hbd'⟩
      rw [hab, hbd, h₁.eq_iff]

theorem LawfulCmp.list {α : Type} {c : α → α → Ordering} (hc : LawfulCmp c) :
    LawfulCmp (cmpList c) := by
  refine ⟨fun a b => ?_, fun a b => ?_, fun {a b d} hab hbd => ?_⟩
  · induction a generalizing b with
    | nil => cases b <;> simp [cmpList]
    | cons x xs ih =>
      cases b with
      | nil => simp [cmpList]
      | cons y ys => simp [cmpList, then_eq_eq, hc.eq_iff, ih]
  · induction a generalizing b with
    | nil => cases b <;> simp [cmpList, Ordering.swap]
    | cons x xs ih =>
      cases b with
      | nil => simp [cmpList, Ordering.swap]
      | cons y ys => simp [cmpList, then_swap, ← hc.swap_eq, ih]
  · induction a generalizing b d with
    | nil =>
      cases b with
      | nil => cases d <;> simp_all [cmpList]
      | cons y ys => cases d <;> simp_all [cmpList]
    | cons x xs ih =>
      cases b with
      | nil => simp [cmpList] at hab
      | cons y ys =>
        cases d with
        | nil => simp [cmpList] at hbd
        | cons z zs =>
          simp only [cmpList, then_eq_lt] at *
          rcases hab with hab | ⟨hab, hab'⟩ <;> rcases hbd with hbd | ⟨hbd, hbd'⟩
          · exact Or.inl (hc.lt_trans hab hbd)
          · rw [hc.eq_iff] at hbd; rw [hbd] at hab; exact Or.inl hab
          · rw [hc.eq_iff] at hab; rw [hab]; exact Or.inl hbd
          · rw [hc.eq_iff] at hab; rw [hc.eq_iff] at hbd
            refine Or.inr ⟨?_, ih hab' hbd'⟩
            rw [hab, hbd, hc.eq_iff]

theorem lawful_cmpPos : LawfulCmp cmpPos := lawful_cmpInt.lex lawful_cmpInt

/-- A comparator pulled back along a function. -/
def cmpOn {α β : Type} (c : β → β → Ordering) (f : α → β) (x y : α) : Ordering := c (f x) (f y)

theorem LawfulCmp.on {α β : Type} {c : β → β → Ordering} (hc : LawfulCmp c)
    {f : α → β} (hf : Function.Injective f) : LawfulCmp (cmpOn c f) := by
  refine ⟨fun a b => ?_, fun a b => hc.swap_eq _ _, fun {a b d} hab hbd => hc.lt_trans hab hbd⟩
  rw [cmpOn, hc.eq_iff]
  exact ⟨fun h => hf h, fun h => by rw [h]⟩

/-- The non-strict test derived from a comparator. -/
def leOfCmp {α : Type} (c : α → α → Ordering) (x y : α) : Bool :=
  match c x y with
  | .gt => false
  | _ => true

theorem leOfCmp_iff {α : Type} (c : α → α → Ordering) (x y : α) :
    leOfCmp c x y = true ↔ c x y ≠ .gt := by
  unfold leOfCmp; rcases h : c x y <;> simp [h]

theorem LawfulCmp.le_refl {α : Type} {c : α → α → Ordering} (hc : LawfulCmp c) (x : α) :
    leOfCmp c x x = true := by
  rw [leOfCmp_iff, (hc.eq_iff x x).mpr rfl]; simp

theorem LawfulCmp.le_total {α : Type} {c : α → α → Ordering} (hc : LawfulCmp c) (x y : α) :
    leOfCmp c x y = true ∨ leOfCmp c y x = true := by
  rw [leOfCmp_iff, leOfCmp_iff]
  rcases h : c x y with _ | _ | _
  · exact Or.inl (by simp)
  · exact Or.inl (by simp)
  · right
    have := hc.swap_eq x y
    rw [h] at this
    intro hy; rw [hy] at this; simp [Ordering.swap] at this

theorem LawfulCmp.le_trans {α : Type} {c : α → α → Ordering} (hc : LawfulCmp c) {x y z : α}
    (h₁ : leOfCmp c x y = true) (h₂ : leOfCmp c y z = true) : leOfCmp c x z = true := by
  rw [leOfCmp_iff] at *
  rcases hxy : c x y with _ | _ | _
  · rcases hyz : c y z with _ | _ | _
    · exact fun h => by rw [hc.lt_trans hxy hyz] at h; cases h
    · rw [hc.eq_iff] at hyz; rw [← hyz]; simp [hxy]
    · exact absurd hyz h₂
  · rw [hc.eq_iff] at hxy; rw [hxy]; exact h₂
  · exact absurd hxy h₁

/-- Removes a minimal element (under `le`) from a list; the frontier model for
`heapq.heappop`. -/
def popMinBy {α : Type} (le : α → α → Bool) : List α → Option (α × List α)
  | [] => none
  | a :: as =>
    match popMinBy le as with
    | none => some (a, [])
    | some (m, rest) => if le a m then some (a, as) else some (m, a :: rest)

theorem popMinBy_eq_none {α : Type} (le : α → α → Bool) (l : List α) :
    popMinBy le l = none ↔ l = [] := by
  cases l with
  | nil => simp [popMinBy]
  | cons a as =>
    rw [popMinBy]
    rcases h : popMinBy le as with _ | ⟨m, rest⟩
    · simp
    · simp only [List.cons_ne_nil, iff_false]
      intro hx
      split at hx <;> cases hx

theorem popMinBy_perm {α : Type} (le : α → α → Bool) :
    ∀ {l : List α} {a : α} {rest : List α}, popMinBy le l = some (a, rest) → l.Perm (a :: rest) := by
  intro l
  induction l with
  | nil => intro a rest h; simp [popMinBy] at h
  | cons b bs ih =>
    intro a rest h
    rw [popMinBy] at h
    rcases h' : popMinBy le bs with _ | ⟨m, r⟩ <;> rw [h'] at h <;> dsimp only at h
    · cases h
      have hnil : bs = [] := (popMinBy_eq_none le bs).mp h'
      subst hnil
      exact List.Perm.refl _
    · have ihp := ih h'
      by_cases hle : le b m = true
      · rw [if_pos hle] at h; cases h; exact List.Perm.refl _
      · rw [if_neg hle] at h; cases h
        exact (ihp.cons b).trans (List.Perm.swap a b r)

theorem popMinBy_min {α : Type} {le : α → α → Bool}
    (hrefl : ∀ x, le x x = true) (htr : ∀ {x y z : α}, le x y = true → le y z = true → le x z = true)
    (htot : ∀ x y, le x y = true ∨ le y x = true) :
    ∀ {l : List α} {a : α} {rest : List α}, popMinBy le l = some (a, rest) →
      ∀ x ∈ l, le a x = true := by
  intro l
  induction l with
  | nil => intro a rest h; simp [popMinBy] at h
  | cons b bs ih =>
    intro a rest h
    rw [popMinBy] at h
    rcases h' : popMinBy le bs with _ | ⟨m, r⟩ <;> rw [h'] at h <;> dsimp only at h
    · cases h
      have hnil : bs = [] := (popMinBy_eq_none le bs).mp h'
      subst hnil
      intro x hx
      rcases List.mem_singleton.mp hx with rfl
      exact hrefl x
    · have ihm := ih h'
      by_cases hle : le b m = true
      · rw [if_pos hle] at h; cases h
        intro x hx
        rcases List.mem_cons.mp hx with rfl | hx
        · exact hrefl x
        · exact htr hle (ihm x hx)
      · rw [if_neg hle] at h; cases h
        intro x hx
        rcases List.mem_cons.mp hx with rfl | hx
        · rcases htot x a with h'' | h''
          · exact absurd h'' hle
          · exact h''
        · exact ihm x hx

namespace SimEngine

/-- A frontier entry of `a_star` in `sim_engine.py`: the Python tuple
`(est_total, cost, current, path)` pushed onto the heap. -/
structure Ent where
  est : ℤ
  cost : ℤ
  cur : Pos
  path : List Pos
deriving DecidableEq, Repr

/-- Entries compare exactly as their Python tuples compare. -/
def cmpEnt : Ent → Ent → Ordering :=
  cmpOn (cmpLex cmpInt (cmpLex cmpInt (cmpLex cmpPos (cmpList cmpPos))))
    (fun e => (e.est, e.cost, e.cur, e.path))

theorem lawful_cmpEnt : LawfulCmp cmpEnt := by
  refine LawfulCmp.on ?_ ?_
  · exact lawful_cmpInt.lex (lawful_cmpInt.lex (lawful_cmpPos.lex lawful_cmpPos.list))
  · intro e₁ e₂ hyp
    cases e₁; cases e₂
    simp only [Prod.mk.injEq] at hyp
    simp only [Ent.mk.injEq]
    exact ⟨hyp.1, hyp.2.1, hyp.2.2.1, hyp.2.2.2⟩

def entLe : Ent → Ent → Bool := leOfCmp cmpEnt

/-- The four step directions of `a_star`, in source order
`[(-1,0),(1,0),(0,-1),(0,1)]`. -/
def dirs : List Pos := [(-1,0),(1,0),(0,-1),(0,1)]

/-- One expansion of a popped entry: bounds-checked, non-blocked, non-closed
neighbors pushed with cost `+1`, the extended path, and Manhattan estimate. -/
def pushNbrs (goal : Pos) (grid : Pos → ℕ) (w h : ℤ) (e : Ent) (closed : List Pos) :
    List Ent :=
  dirs.filterMap fun d =>
    let n : Pos := (e.cur.1 + d.1, e.cur.2 + d.2)
    if inB w h n then
      if grid n = 1 then none
      else if n ∈ closed then none
      else some ⟨e.cost + 1 + heuristic n goal, e.cost + 1, n, e.path ++ [n]⟩
    else none

/-- The `while open_set` loop of `a_star`, with explicit fuel.  `some (some p)`
is the `return path` exit, `some none` the no-path fall-through, and `none`
means the fuel ran out (shown impossible for `fuelA` below). -/
def aStarLoop (goal : Pos) (grid : Pos → ℕ) (w h : ℤ) :
    ℕ → List Ent → List Pos → Option (Option (List Pos))
  | 0, _, _ => none
  | fuel + 1, q, closed =>
    match popMinBy entLe q with
    | none => some none
    | some (e, rest) =>
      if e.cur = goal then some (some e.path)
      else if e.cur ∈ closed then aStarLoop goal grid w h fuel rest closed
      else aStarLoop goal grid w h fuel
        (rest ++ pushNbrs goal grid w h e (e.cur :: closed)) (e.cur :: closed)

/-- Fuel that always suffices (proved below). -/
def fuelA (w h : ℤ) : ℕ := 4 * (w.toNat * h.toNat) + 8

/-- The search body of `a_star` from `sim_engine.py`, without the cache
shortcut (the `cache=None` call form): `some p` when the search reaches the
goal, `none` for the no-path fall-through. -/
def searchA (start goal : Pos) (grid : Pos → ℕ) (w h : ℤ) : Option (List Pos) :=
  match aStarLoop goal grid w h (fuelA w h) [⟨heuristic start goal, 0, start, [start]⟩] [] with
  | some r => r
  | none => none

/-- `a_star(start, goal, grid, width, height)` without a cache: the found
path, or `[start]` when no path exists. -/
def a_star (start goal : Pos) (grid : Pos → ℕ) (w h : ℤ) : List Pos :=
  (searchA start goal grid w h).getD [start]

/-- The shared path cache, keyed by the `(start, goal)` tuple. -/
def Cache : Type := Pos × Pos → Option (List Pos)

/-- The empty cache `dict()`. -/
def Cache.empty : Cache := fun _ => none

/-- `a_star` with a cache dict: a hit returns the stored path without
searching; otherwise the search result (found path or `[start]`) is stored
under `(start, goal)` and returned, exactly as both `return` points of the
Python function do. -/
def a_star_cached (start goal : Pos) (grid : Pos → ℕ) (w h : ℤ) (cache : Cache) :
    List Pos × Cache :=
  match cache (start, goal) with
  | some p => (p, cache)
  | none =>
    let r := a_star start goal grid w h
    (r, fun k => if k = (start, goal) then some r else cache k)

end SimEngine

/-- Adjacency of grid cells: one 4-directional step. -/
def Adj (a b : Pos) : Prop := heuristic a b = 1

theorem heuristic_self (a : Pos) : heuristic a a = 0 := by simp [heuristic]

theorem heuristic_nonneg (a b : Pos) : 0 ≤ heuristic a b :=
  add_nonneg (abs_nonneg _) (abs_nonneg _)

theorem heuristic_comm (a b : Pos) : heuristic a b = heuristic b a := by
  simp [heuristic, abs_sub_comm]

theorem heuristic_triangle (a b c : Pos) : heuristic a c ≤ heuristic a b + heuristic b c := by
  have h₁ := abs_sub_le a.1 b.1 c.1
  have h₂ := abs_sub_le a.2 b.2 c.2
  simp only [heuristic]
  linarith

theorem heuristic_eq_zero {a b : Pos} : heuristic a b = 0 ↔ a = b := by
  constructor
  · intro hz
    simp only [heuristic] at hz
    have n₁ := abs_nonneg (a.1 - b.1)
    have n₂ := abs_nonneg (a.2 - b.2)
    have h₁ : |a.1 - b.1| = 0 := by linarith
    have h₂ : |a.2 - b.2| = 0 := by linarith
    have hx := abs_eq_zero.mp h₁
    have hy := abs_eq_zero.mp h₂
    exact Prod.ext (by omega) (by omega)
  · rintro rfl; exact heuristic_self a

namespace SimEngine

/-- A legal step sequence: starting at `a`, every subsequent cell is adjacent
to its predecessor, in bounds, and not blocked. -/
def StepsOK (grid : Pos → ℕ) (w h : ℤ) : Pos → List Pos → Prop
  | _, [] => True
  | a, b :: rest => (Adj a b ∧ inB w h b ∧ grid b ≠ 1) ∧ StepsOK grid w h b rest

/-- Free-cell reachability on the grid graph of `sim_engine.py`: the target is
reachable from `start` through in-bounds unblocked cells. -/
inductive Reaches (grid : Pos → ℕ) (w h : ℤ) (start : Pos) : Pos → Prop
  | refl : Reaches grid w h start start
  | tail {p q : Pos} : Reaches grid w h start p → Adj p q → inB w h q → grid q ≠ 1 →
      Reaches grid w h start q

theorem Reaches.head_ext {grid : Pos → ℕ} {w h : ℤ} {a b c : Pos}
    (h₁ : Reaches grid w h b c) (hadj : Adj a b) (hin : inB w h b) (hfree : grid b ≠ 1) :
    Reaches grid w h a c := by
  induction h₁ with
  | refl => exact .tail .refl hadj hin hfree
  | tail _ ha hi hf ih => exact .tail ih ha hi hf

theorem stepsOK_snoc {grid : Pos → ℕ} {w h : ℤ} {a c n : Pos} {rest : List Pos}
    (hs : StepsOK grid w h a rest) (hl : (a :: rest).getLast? = some c)
    (hadj : Adj c n) (hin : inB w h n) (hfree : grid n ≠ 1) :
    StepsOK grid w h a (rest ++ [n]) := by
  induction rest generalizing a with
  | nil =>
    simp only [List.getLast?_singleton, Option.some.injEq] at hl
    subst hl
    exact ⟨⟨hadj, hin, hfree⟩, trivial⟩
  | cons b rs ih =>
    rcases hs with ⟨hb, hs'⟩
    rw [List.getLast?_cons_cons] at hl
    exact ⟨hb, ih hs' hl⟩

theorem stepsOK_reaches {grid : Pos → ℕ} {w h : ℤ} {a c : Pos} {rest : List Pos}
    (hs : StepsOK grid w h a rest) (hl : (a :: rest).getLast? = some c) :
    Reaches grid w h a c := by
  induction rest generalizing a with
  | nil =>
    simp only [List.getLast?_singleton, Option.some.injEq] at hl
    subst hl
    exact .refl
  | cons b rs ih =>
    rcases hs with ⟨⟨hadj, hin, hfree⟩, hs'⟩
    rw [List.getLast?_cons_cons] at hl
    exact (ih hs' hl).head_ext hadj hin hfree

theorem stepsOK_dist {grid : Pos → ℕ} {w h : ℤ} {a c : Pos} {rest : List Pos}
    (hs : StepsOK grid w h a rest) (hl : (a :: rest).getLast? = some c) :
    heuristic a c ≤ rest.length := by
  induction rest generalizing a with
  | nil =>
    simp only [List.getLast?_singleton, Option.some.injEq] at hl
    subst hl
    simp [heuristic_self]
  | cons b rs ih =>
    rcases hs with ⟨⟨hadj, _, _⟩, hs'⟩
    rw [List.getLast?_cons_cons] at hl
    have h₁ := ih hs' hl
    have h₂ := heuristic_triangle a b c
    have h₃ : heuristic a b = 1 := hadj
    simp only [List.length_cons]
    push_cast
    linarith

/-- The invariant tying a frontier entry of `a_star` to the path it carries. -/
structure ValidEnt (start goal : Pos) (grid : Pos → ℕ) (w h : ℤ) (e : Ent) : Prop where
  steps : ∃ rest, e.path = start :: rest ∧ StepsOK grid w h start rest
  cur_eq : e.path.getLast? = some e.cur
  cost_eq : e.cost = (e.path.length : ℤ) - 1
  est_eq : e.est = e.cost + heuristic e.cur goal

theorem ValidEnt.init (start goal : Pos) (grid : Pos → ℕ) (w h : ℤ) :
    ValidEnt start goal grid w h ⟨heuristic start goal, 0, start, [start]⟩ := by
  refine ⟨⟨[], rfl, trivial⟩, rfl, by simp, by simp⟩

theorem ValidEnt.reaches {start goal : Pos} {grid : Pos → ℕ} {w h : ℤ} {e : Ent}
    (hv : ValidEnt start goal grid w h e) : Reaches grid w h start e.cur := by
  rcases hv.steps with ⟨rest, hpath, hs⟩
  have hl := hv.cur_eq
  rw [hpath] at hl
  exact stepsOK_reaches hs hl

theorem ValidEnt.est_ge {start goal : Pos} {grid : Pos → ℕ} {w h : ℤ} {e : Ent}
    (hv : ValidEnt start goal grid w h e) : heuristic start goal ≤ e.est := by
  rcases hv.steps with ⟨rest, hpath, hs⟩
  have hl := hv.cur_eq
  rw [hpath] at hl
  have hd := stepsOK_dist hs hl
  have ht := heuristic_triangle start e.cur goal
  have hc := hv.cost_eq
  have he := hv.est_eq
  rw [hpath] at hc
  simp only [List.length_cons] at hc
  push_cast at hc
  linarith

theorem Adj_of_dir {c : Pos} {d : Pos} (hd : d ∈ dirs) :
    Adj c (c.1 + d.1, c.2 + d.2) := by
  fin_cases hd
  · show |c.1 - (c.1 + -1)| + |c.2 - (c.2 + 0)| = 1
    rw [show c.1 - (c.1 + -1) = 1 by ring, show c.2 - (c.2 + 0) = 0 by ring]
    simp
  · show |c.1 - (c.1 + 1)| + |c.2 - (c.2 + 0)| = 1
    rw [show c.1 - (c.1 + 1) = -1 by ring, show c.2 - (c.2 + 0) = 0 by ring]
    simp
  · show |c.1 - (c.1 + 0)| + |c.2 - (c.2 + -1)| = 1
    rw [show c.1 - (c.1 + 0) = 0 by ring, show c.2 - (c.2 + -1) = 1 by ring]
    simp
  · show |c.1 - (c.1 + 0)| + |c.2 - (c.2 + 1)| = 1
    rw [show c.1 - (c.1 + 0) = 0 by ring, show c.2 - (c.2 + 1) = -1 by ring]
    simp

theorem mem_pushNbrs {goal : Pos} {grid : Pos → ℕ} {w h : ℤ} {e e' : Ent}
    {closed : List Pos} :
    e' ∈ pushNbrs goal grid w h e closed ↔
      ∃ d ∈ dirs,
        inB w h (e.cur.1 + d.1, e.cur.2 + d.2) ∧
        grid (e.cur.1 + d.1, e.cur.2 + d.2) ≠ 1 ∧
        (e.cur.1 + d.1, e.cur.2 + d.2) ∉ closed ∧
        e' = ⟨e.cost + 1 + heuristic (e.cur.1 + d.1, e.cur.2 + d.2) goal, e.cost + 1,
              (e.cur.1 + d.1, e.cur.2 + d.2),
              e.path ++ [(e.cur.1 + d.1, e.cur.2 + d.2)]⟩ := by
  simp only [pushNbrs, List.mem_filterMap]
  constructor
  · rintro ⟨d, hd, hf⟩
    refine ⟨d, hd, ?_⟩
    by_cases h₁ : inB w h (e.cur.1 + d.1, e.cur.2 + d.2)
    · rw [if_pos h₁] at hf
      by_cases h₂ : grid (e.cur.1 + d.1, e.cur.2 + d.2) = 1
      · rw [if_pos h₂] at hf; cases hf
      · rw [if_neg h₂] at hf
        by_cases h₃ : (e.cur.1 + d.1, e.cur.2 + d.2) ∈ closed
        · rw [if_pos h₃] at hf; cases hf
        · rw [if_neg h₃] at hf
          cases hf
          exact ⟨h₁, h₂, h₃, rfl⟩
    · rw [if_neg h₁] at hf; cases hf
  · rintro ⟨d, hd, h₁, h₂, h₃, rfl⟩
    exact ⟨d, hd, by rw [if_pos h₁, if_neg h₂, if_neg h₃]⟩

theorem ValidEnt.push {start goal : Pos} {grid : Pos → ℕ} {w h : ℤ} {e e' : Ent}
    {closed : List Pos} (hv : ValidEnt start goal grid w h e)
    (he' : e' ∈ pushNbrs goal grid w h e closed) : ValidEnt start goal grid w h e' := by
  rcases mem_pushNbrs.mp he' with ⟨d, hd, hin, hfree, _, rfl⟩
  rcases hv.steps with ⟨rest, hpath, hs⟩
  have hl := hv.cur_eq
  rw [hpath] at hl
  have hadj := Adj_of_dir (c := e.cur) hd
  constructor
  · refine ⟨rest ++ [(e.cur.1 + d.1, e.cur.2 + d.2)], ?_, ?_⟩
    · rw [hpath]; simp
    · exact stepsOK_snoc hs hl hadj hin hfree
  · simp [List.getLast?_concat]
  · have := hv.cost_eq
    simp only [List.length_append, List.length_singleton]
    push_cast
    omega
  · rfl

/-- All cells a frontier entry can sit on: the in-bounds cells plus the
start cell (which `a_star` pushes without any bounds check). -/
def allCells (w h : ℤ) (start : Pos) : Finset Pos :=
  ((Finset.Ico (0:ℤ) w) ×ˢ (Finset.Ico (0:ℤ) h)) ∪ {start}

theorem mem_allCells_of_inB {w h : ℤ} {start p : Pos} (hp : inB w h p) :
    p ∈ allCells w h start := by
  rcases hp with ⟨h₁, h₂, h₃, h₄⟩
  exact Finset.mem_union_left _ (Finset.mem_product.mpr
    ⟨Finset.mem_Ico.mpr ⟨h₁, h₂⟩, Finset.mem_Ico.mpr ⟨h₃, h₄⟩⟩)

theorem start_mem_allCells (w h : ℤ) (start : Pos) : start ∈ allCells w h start :=
  Finset.mem_union_right _ (Finset.mem_singleton_self start)

theorem card_allCells_le (w h : ℤ) (start : Pos) :
    (allCells w h start).card ≤ w.toNat * h.toNat + 1 := by
  refine le_trans (Finset.card_union_le _ _) ?_
  have h₁ : ((Finset.Ico (0:ℤ) w) ×ˢ (Finset.Ico (0:ℤ) h)).card = w.toNat * h.toNat := by
    rw [Finset.card_product, Int.card_Ico, Int.card_Ico]
    simp
  rw [h₁, Finset.card_singleton]

theorem length_pushNbrs_le {goal : Pos} {grid : Pos → ℕ} {w h : ℤ} {e : Ent}
    {closed : List Pos} : (pushNbrs goal grid w h e closed).length ≤ 4 := by
  have := List.length_filterMap_le
    (fun d : Pos =>
      let n : Pos := (e.cur.1 + d.1, e.cur.2 + d.2)
      if inB w h n then
        if grid n = 1 then none
        else if n ∈ closed then none
        else some (⟨e.cost + 1 + heuristic n goal, e.cost + 1, n, e.path ++ [n]⟩ : Ent)
      else none) dirs
  simpa [pushNbrs, dirs] using this

theorem entLe_refl (e : Ent) : entLe e e = true := lawful_cmpEnt.le_refl e

theorem entLe_total (e₁ e₂ : Ent) : entLe e₁ e₂ = true ∨ entLe e₂ e₁ = true :=
  lawful_cmpEnt.le_total e₁ e₂

theorem entLe_trans {e₁ e₂ e₃ : Ent} (h₁ : entLe e₁ e₂ = true) (h₂ : entLe e₂ e₃ = true) :
    entLe e₁ e₃ = true := lawful_cmpEnt.le_trans h₁ h₂

theorem entLe_est {e₁ e₂ : Ent} (hle : entLe e₁ e₂ = true) : e₁.est ≤ e₂.est := by
  rw [entLe, leOfCmp_iff] at hle
  by_contra hlt
  push_neg at hlt
  apply hle
  have : cmpInt e₁.est e₂.est = .gt := cmpInt_eq_gt.mpr hlt
  simp only [cmpEnt, cmpOn, cmpLex, this]
  rfl

end SimEngine

namespace SimEngine

theorem aStarLoop_total (start goal : Pos) (grid : Pos → ℕ) (w h : ℤ) :
    ∀ (fuel : ℕ) (q : List Ent) (closed : List Pos),
      (∀ e ∈ q, e.cur ∈ allCells w h start) →
      q.length + 4 * ((allCells w h start \ closed.toFinset).card) + 1 ≤ fuel →
      aStarLoop goal grid w h fuel q closed ≠ none := by
  intro fuel
  induction fuel with
  | zero => intro q closed _ hf; omega
  | succ n ih =>
    intro q closed hq hf
    rw [aStarLoop]
    rcases hpop : popMinBy entLe q with _ | ⟨e, rest⟩
    · simp
    · dsimp only
      have hperm := popMinBy_perm entLe hpop
      have hlen : q.length = rest.length + 1 := by
        have := hperm.length_eq; simpa using this
      by_cases hgoal : e.cur = goal
      · simp [hgoal]
      · rw [if_neg hgoal]
        by_cases hcl : e.cur ∈ closed
        · rw [if_pos hcl]
          refine ih rest closed ?_ (by omega)
          intro e' he'
          exact hq e' (hperm.mem_iff.mpr (List.mem_cons_of_mem _ he'))
        · rw [if_neg hcl]
          have hcur : e.cur ∈ allCells w h start := hq e (hperm.mem_iff.mpr (List.mem_cons_self e rest))
          have hmem : e.cur ∈ allCells w h start \ closed.toFinset :=
            Finset.mem_sdiff.mpr ⟨hcur, by simpa using hcl⟩
          have hcard : ((allCells w h start \ (e.cur :: closed).toFinset).card) + 1 =
              ((allCells w h start \ closed.toFinset).card) := by
            rw [List.toFinset_cons, Finset.sdiff_insert]
            rw [Finset.card_erase_of_mem hmem]
            have : 1 ≤ (allCells w h start \ closed.toFinset).card :=
              Finset.card_pos.mpr ⟨e.cur, hmem⟩
            omega
          refine ih _ _ ?_ ?_
          · intro e' he'
            rcases List.mem_append.mp he' with h' | h'
            · exact hq e' (hperm.mem_iff.mpr (List.mem_cons_of_mem _ h'))
            · rcases mem_pushNbrs.mp h' with ⟨d, hd, hin, _, _, rfl⟩
              exact mem_allCells_of_inB hin
          · have hpl := @length_pushNbrs_le goal grid w h e (e.cur :: closed)
            rw [List.length_append]
            omega

theorem aStarLoop_sound (start goal : Pos) (grid : Pos → ℕ) (w h : ℤ) :
    ∀ (fuel : ℕ) (q : List Ent) (closed : List Pos) (p : List Pos),
      (∀ e ∈ q, ValidEnt start goal grid w h e) →
      aStarLoop goal grid w h fuel q closed = some (some p) →
      Reaches grid w h start goal ∧
        ∃ rest, p = start :: rest ∧ StepsOK grid w h start rest ∧ p.getLast? = some goal := by
  intro fuel
  induction fuel with
  | zero => intro q closed p _ hr; simp [aStarLoop] at hr
  | succ n ih =>
    intro q closed p hq hr
    rw [aStarLoop] at hr
    rcases hpop : popMinBy entLe q with _ | ⟨e, rest⟩ <;> rw [hpop] at hr <;>
      dsimp only at hr
    · simp at hr
    · have hperm := popMinBy_perm entLe hpop
      have hv : ValidEnt start goal grid w h e := hq e (hperm.mem_iff.mpr (List.mem_cons_self e rest))
      by_cases hgoal : e.cur = goal
      · rw [if_pos hgoal] at hr
        cases hr
        refine ⟨hgoal ▸ hv.reaches, ?_⟩
        rcases hv.steps with ⟨r, hpath, hs⟩
        exact ⟨r, hpath, hs, by rw [hv.cur_eq, hgoal]⟩
      · rw [if_neg hgoal] at hr
        by_cases hcl : e.cur ∈ closed
        · rw [if_pos hcl] at hr
          exact ih rest closed p
            (fun e' he' => hq e' (hperm.mem_iff.mpr (List.mem_cons_of_mem _ he'))) hr
        · rw [if_neg hcl] at hr
          refine ih _ _ p ?_ hr
          intro e' he'
          rcases List.mem_append.mp he' with h' | h'
          · exact hq e' (hperm.mem_iff.mpr (List.mem_cons_of_mem _ h'))
          · exact hv.push h'

/-- No free-cell path means `a_star` exhausts the frontier and returns
`[start]`. -/
theorem a_star_of_no_path {start goal : Pos} {grid : Pos → ℕ} {w h : ℤ}
    (hnp : ¬ Reaches grid w h start goal) : a_star start goal grid w h = [start] := by
  unfold a_star searchA
  rcases hres : aStarLoop goal grid w h (fuelA w h)
      [⟨heuristic start goal, 0, start, [start]⟩] [] with _ | r
  · exfalso
    refine aStarLoop_total start goal grid w h (fuelA w h) _ [] ?_ ?_ hres
    · intro e he
      rcases List.mem_singleton.mp he with rfl
      exact start_mem_allCells w h start
    · have h₁ := card_allCells_le w h start
      simp only [List.length_singleton, List.toFinset_nil, Finset.sdiff_empty]
      unfold fuelA
      omega
  · rcases r with _ | p
    · simp
    · exfalso
      refine hnp (aStarLoop_sound start goal grid w h (fuelA w h) _ [] p ?_ hres).1
      intro e he
      rcases List.mem_singleton.mp he with rfl
      exact ValidEnt.init start goal grid w h

end SimEngine

namespace SimEngine

theorem stepsOK_all_inB {grid : Pos → ℕ} {w h : ℤ} {a : Pos} {rest : List Pos}
    (hs : StepsOK grid w h a rest) : ∀ p ∈ rest, inB w h p ∧ grid p ≠ 1 := by
  induction rest generalizing a with
  | nil => intro p hp; cases hp
  | cons b rs ih =>
    rcases hs with ⟨⟨_, hin, hfree⟩, hs'⟩
    intro p hp
    rcases List.mem_cons.mp hp with rfl | hp
    · exact ⟨hin, hfree⟩
    · exact ih hs' p hp

theorem ValidEnt.cur_mem {start goal : Pos} {grid : Pos → ℕ} {w h : ℤ} {e : Ent}
    (hv : ValidEnt start goal grid w h e) :
    e.cur = start ∨ (inB w h e.cur ∧ grid e.cur ≠ 1) := by
  rcases hv.steps with ⟨rest, hpath, hs⟩
  have hl := hv.cur_eq
  rw [hpath] at hl
  have hmem : e.cur ∈ start :: rest := by
    have h₁ : e.cur ∈ (start :: rest).getLast? := Option.mem_def.mpr hl
    rcases List.mem_getLast?_eq_getLast h₁ with ⟨hne, heq⟩
    rw [heq]
    exact List.getLast_mem hne
  rcases List.mem_cons.mp hmem with h' | h'
  · exact Or.inl h'
  · exact Or.inr (stepsOK_all_inB hs e.cur h')

/-- Cells on a Manhattan geodesic from `start` to `goal`. -/
def OnGeo (start goal c : Pos) : Prop :=
  heuristic start c + heuristic c goal = heuristic start goal

instance (start goal c : Pos) : Decidable (OnGeo start goal c) := by
  unfold OnGeo; exact inferInstance

/-- Hypothesis of the optimality argument: every geodesic cell other than the
start is in bounds and unblocked. -/
def GeoFree (start goal : Pos) (grid : Pos → ℕ) (w h : ℤ) : Prop :=
  ∀ c : Pos, OnGeo start goal c → c ≠ start → inB w h c ∧ grid c ≠ 1

/-- The canonical geodesic step from `c` one cell closer to `g`. -/
def succToward (c g : Pos) : Pos :=
  if c.1 ≠ g.1 then (c.1 + (if c.1 < g.1 then 1 else -1), c.2)
  else (c.1, c.2 + (if c.2 < g.2 then 1 else -1))

theorem succToward_dir {c g : Pos} :
    ∃ d ∈ dirs, succToward c g = (c.1 + d.1, c.2 + d.2) := by
  unfold succToward
  by_cases h₁ : c.1 ≠ g.1
  · rw [if_pos h₁]
    by_cases h₂ : c.1 < g.1
    · exact ⟨(1, 0), by simp [dirs], by rw [if_pos h₂]; simp⟩
    · exact ⟨(-1, 0), by simp [dirs], by rw [if_neg h₂]; simp⟩
  · rw [if_neg h₁]
    by_cases h₂ : c.2 < g.2
    · exact ⟨(0, 1), by simp [dirs], by rw [if_pos h₂]; simp⟩
    · exact ⟨(0, -1), by simp [dirs], by rw [if_neg h₂]; simp⟩

theorem heuristic_succToward {c g : Pos} (hne : c ≠ g) :
    heuristic (succToward c g) g = heuristic c g - 1 := by
  unfold succToward heuristic
  by_cases h₁ : c.1 ≠ g.1
  · rw [if_pos h₁]
    by_cases h₂ : c.1 < g.1
    · rw [if_pos h₂]
      dsimp only
      rcases abs_cases (c.1 + 1 - g.1) with ⟨e₁, _⟩ | ⟨e₁, _⟩ <;>
        rcases abs_cases (c.1 - g.1) with ⟨e₂, _⟩ | ⟨e₂, _⟩ <;> omega
    · rw [if_neg h₂]
      dsimp only
      rcases abs_cases (c.1 + -1 - g.1) with ⟨e₁, _⟩ | ⟨e₁, _⟩ <;>
        rcases abs_cases (c.1 - g.1) with ⟨e₂, _⟩ | ⟨e₂, _⟩ <;> omega
  · rw [if_neg h₁]
    push_neg at h₁
    have h₃ : c.2 ≠ g.2 := by
      intro hy; exact hne (Prod.ext h₁ hy)
    by_cases h₂ : c.2 < g.2
    · rw [if_pos h₂]
      dsimp only
      rcases abs_cases (c.2 + 1 - g.2) with ⟨e₁, _⟩ | ⟨e₁, _⟩ <;>
        rcases abs_cases (c.2 - g.2) with ⟨e₂, _⟩ | ⟨e₂, _⟩ <;> omega
    · rw [if_neg h₂]
      dsimp only
      rcases abs_cases (c.2 + -1 - g.2) with ⟨e₁, _⟩ | ⟨e₁, _⟩ <;>
        rcases abs_cases (c.2 - g.2) with ⟨e₂, _⟩ | ⟨e₂, _⟩ <;> omega

theorem heuristic_succToward_one {c g : Pos} :
    heuristic c (succToward c g) = 1 := by
  rcases succToward_dir (c := c) (g := g) with ⟨d, hd, heq⟩
  rw [heq]
  exact Adj_of_dir hd

/-- The geodesic invariant: the frontier holds a valid entry with minimal
estimate whose cell is unclosed and strictly closer to the goal than every
closed geodesic cell. -/
def GeoInv (start goal : Pos) (grid : Pos → ℕ) (w h : ℤ)
    (q : List Ent) (closed : List Pos) : Prop :=
  ∃ e ∈ q, ValidEnt start goal grid w h e ∧ e.est = heuristic start goal ∧
    e.cur ∉ closed ∧
    ∀ c ∈ closed, OnGeo start goal c → heuristic e.cur goal < heuristic c goal

theorem aStarLoop_geo (start goal : Pos) (grid : Pos → ℕ) (w h : ℤ)
    (hgf : GeoFree start goal grid w h) :
    ∀ (fuel : ℕ) (q : List Ent) (closed : List Pos),
      (∀ e ∈ q, ValidEnt start goal grid w h e) →
      GeoInv start goal grid w h q closed →
      q.length + 4 * ((allCells w h start \ closed.toFinset).card) + 1 ≤ fuel →
      ∃ p, aStarLoop goal grid w h fuel q closed = some (some p) ∧
        (∃ rest, p = start :: rest ∧ StepsOK grid w h start rest) ∧
        p.getLast? = some goal ∧ (p.length : ℤ) = heuristic start goal + 1 := by
  intro fuel
  induction fuel with
  | zero => intro q closed _ _ hf; omega
  | succ m ih =>
    intro q closed hq hinv hf
    rcases hinv with ⟨ew, hewq, hvw, hestw, hclw, hhigh⟩
    rw [aStarLoop]
    rcases hpop : popMinBy entLe q with _ | ⟨e, rest⟩
    · rw [popMinBy_eq_none] at hpop
      subst hpop
      simp at hewq
    · dsimp only
      have hperm := popMinBy_perm entLe hpop
      have hlen : q.length = rest.length + 1 := by
        have := hperm.length_eq; simpa using this
      have hmin := popMinBy_min entLe_refl (fun {x y z} => entLe_trans) entLe_total hpop
      have hve : ValidEnt start goal grid w h e :=
        hq e (hperm.mem_iff.mpr (List.mem_cons_self e rest))
      have heste : e.est = heuristic start goal := by
        have h₁ := entLe_est (hmin ew hewq)
        have h₂ := hve.est_ge
        omega
      by_cases hgoal : e.cur = goal
      · rw [if_pos hgoal]
        refine ⟨e.path, rfl, hve.steps, ?_, ?_⟩
        · rw [hve.cur_eq, hgoal]
        · have hc := hve.cost_eq
          have hest := hve.est_eq
          rw [hgoal, heuristic_self] at hest
          omega
      · rw [if_neg hgoal]
        -- the popped entry is on a geodesic
        have hgeoE : OnGeo start goal e.cur ∧
            e.cost = heuristic start goal - heuristic e.cur goal := by
          rcases hve.steps with ⟨r, hpath, hs⟩
          have hl := hve.cur_eq
          rw [hpath] at hl
          have hd := stepsOK_dist hs hl
          have ht := heuristic_triangle start e.cur goal
          have hc := hve.cost_eq
          have hest := hve.est_eq
          rw [hpath] at hc
          simp only [List.length_cons] at hc
          push_cast at hc
          constructor
          · unfold OnGeo; omega
          · omega
        by_cases hcl : e.cur ∈ closed
        · rw [if_pos hcl]
          have hwne : ew ≠ e := by
            intro heq; rw [heq] at hclw; exact hclw hcl
          have hewrest : ew ∈ rest := by
            rcases List.mem_cons.mp (hperm.mem_iff.mp hewq) with h' | h'
            · exact absurd h' hwne
            · exact h'
          refine ih rest closed
            (fun e' he' => hq e' (hperm.mem_iff.mpr (List.mem_cons_of_mem _ he')))
            ⟨ew, hewrest, hvw, hestw, hclw, hhigh⟩ (by omega)
        · rw [if_neg hcl]
          have hdE1 : 1 ≤ heuristic e.cur goal := by
            have h₀ := heuristic_nonneg e.cur goal
            rcases Int.lt_or_le 0 (heuristic e.cur goal) with h' | h'
            · omega
            · exact absurd (heuristic_eq_zero.mp (by omega)) hgoal
          have hdEH : heuristic e.cur goal ≤ heuristic start goal := by
            have h₁ := heuristic_nonneg start e.cur
            have h₂ := hgeoE.1
            unfold OnGeo at h₂
            omega
          have hcur : e.cur ∈ allCells w h start := by
            rcases hve.cur_mem with h' | h'
            · rw [h']; exact start_mem_allCells w h start
            · exact mem_allCells_of_inB h'.1
          have hmem : e.cur ∈ allCells w h start \ closed.toFinset :=
            Finset.mem_sdiff.mpr ⟨hcur, by simpa using hcl⟩
          have hcard : ((allCells w h start \ (e.cur :: closed).toFinset).card) + 1 =
              ((allCells w h start \ closed.toFinset).card) := by
            rw [List.toFinset_cons, Finset.sdiff_insert]
            rw [Finset.card_erase_of_mem hmem]
            have : 1 ≤ (allCells w h start \ closed.toFinset).card :=
              Finset.card_pos.mpr ⟨e.cur, hmem⟩
            omega
          have hpl := @length_pushNbrs_le goal grid w h e (e.cur :: closed)
          have hAV : ∀ e' ∈ rest ++ pushNbrs goal grid w h e (e.cur :: closed),
              ValidEnt start goal grid w h e' := by
            intro e' he'
            rcases List.mem_append.mp he' with h' | h'
            · exact hq e' (hperm.mem_iff.mpr (List.mem_cons_of_mem _ h'))
            · exact hve.push h'
          have hfuel : (rest ++ pushNbrs goal grid w h e (e.cur :: closed)).length +
              4 * ((allCells w h start \ (e.cur :: closed).toFinset).card) + 1 ≤ m := by
            rw [List.length_append]
            omega
          by_cases hcomp : heuristic e.cur goal ≤ heuristic ew.cur goal
          · -- the geodesic successor of the popped cell becomes the witness
            set n := succToward e.cur goal with hn
            have hngoal : heuristic n goal = heuristic e.cur goal - 1 :=
              heuristic_succToward hgoal
            have hcurn : heuristic e.cur n = 1 := heuristic_succToward_one
            have hgeoN : OnGeo start goal n := by
              have h₁ := heuristic_triangle start e.cur n
              have h₂ := heuristic_triangle start n goal
              have h₃ := hgeoE.1
              unfold OnGeo at *
              omega
            have hnstart : n ≠ start := by
              intro hns
              have h₁ : heuristic start n = 0 := by rw [hns, heuristic_self]
              have h₂ := hgeoN
              unfold OnGeo at h₂
              omega
            have hnfree := hgf n hgeoN hnstart
            have hncl : n ∉ (e.cur :: closed) := by
              intro hmemn
              rcases List.mem_cons.mp hmemn with h' | h'
              · rw [h'] at hngoal; omega
              · have hlt := hhigh n h' hgeoN
                omega
            rcases succToward_dir (c := e.cur) (g := goal) with ⟨d, hd, hdeq⟩
            rw [← hn] at hdeq
            have hpush : (⟨e.cost + 1 + heuristic n goal, e.cost + 1, n, e.path ++ [n]⟩ : Ent)
                ∈ pushNbrs goal grid w h e (e.cur :: closed) := by
              rw [mem_pushNbrs]
              refine ⟨d, hd, ?_⟩
              rw [← hdeq]
              exact ⟨hnfree.1, hnfree.2, hncl, rfl⟩
            have hvnew : ValidEnt start goal grid w h
                ⟨e.cost + 1 + heuristic n goal, e.cost + 1, n, e.path ++ [n]⟩ :=
              hve.push hpush
            refine ih (rest ++ pushNbrs goal grid w h e (e.cur :: closed)) (e.cur :: closed)
              hAV ?_ hfuel
            refine ⟨_, List.mem_append_right _ hpush, hvnew, ?_, hncl, ?_⟩
            · show e.cost + 1 + heuristic n goal = heuristic start goal
              have := hgeoE.2
              omega
            · intro c hc hgc
              show heuristic n goal < heuristic c goal
              rcases List.mem_cons.mp hc with rfl | h'
              · omega
              · have := hhigh c h' hgc
                omega
          · -- the old witness survives: the popped cell is farther from the goal
            push_neg at hcomp
            have hwne : ew ≠ e := by
              intro heq
              rw [heq] at hcomp
              omega
            have hewrest : ew ∈ rest := by
              rcases List.mem_cons.mp (hperm.mem_iff.mp hewq) with h' | h'
              · exact absurd h' hwne
              · exact h'
            refine ih (rest ++ pushNbrs goal grid w h e (e.cur :: closed)) (e.cur :: closed)
              hAV ?_ hfuel
            refine ⟨ew, List.mem_append_left _ hewrest, hvw, hestw, ?_, ?_⟩
            · intro hmemw
              rcases List.mem_cons.mp hmemw with h' | h'
              · rw [h'] at hcomp; omega
              · exact hclw h'
            · intro c hc hgc
              rcases List.mem_cons.mp hc with rfl | h'
              · exact hcomp
              · exact hhigh c h' hgc

end SimEngine

namespace SimEngine

theorem onGeo_inB {w h : ℤ} {start goal c : Pos} (hs : inB w h start) (hg : inB w h goal)
    (hgeo : OnGeo start goal c) : inB w h c := by
  unfold OnGeo heuristic at hgeo
  have t1 := abs_sub_le start.1 c.1 goal.1
  have t2 := abs_sub_le start.2 c.2 goal.2
  have e1 : |start.1 - c.1| + |c.1 - goal.1| = |start.1 - goal.1| := by omega
  have e2 : |start.2 - c.2| + |c.2 - goal.2| = |start.2 - goal.2| := by omega
  rcases hs with ⟨s1, s2, s3, s4⟩
  rcases hg with ⟨g1, g2, g3, g4⟩
  refine ⟨?_, ?_, ?_, ?_⟩
  · rcases abs_cases (start.1 - c.1) with ⟨h₁, _⟩ | ⟨h₁, _⟩ <;>
      rcases abs_cases (c.1 - goal.1) with ⟨h₂, _⟩ | ⟨h₂, _⟩ <;>
      rcases abs_cases (start.1 - goal.1) with ⟨h₃, _⟩ | ⟨h₃, _⟩ <;> omega
  · rcases abs_cases (start.1 - c.1) with ⟨h₁, _⟩ | ⟨h₁, _⟩ <;>
      rcases abs_cases (c.1 - goal.1) with ⟨h₂, _⟩ | ⟨h₂, _⟩ <;>
      rcases abs_cases (start.1 - goal.1) with ⟨h₃, _⟩ | ⟨h₃, _⟩ <;> omega
  · rcases abs_cases (start.2 - c.2) with ⟨h₁, _⟩ | ⟨h₁, _⟩ <;>
      rcases abs_cases (c.2 - goal.2) with ⟨h₂, _⟩ | ⟨h₂, _⟩ <;>
      rcases abs_cases (start.2 - goal.2) with ⟨h₃, _⟩ | ⟨h₃, _⟩ <;> omega
  · rcases abs_cases (start.2 - c.2) with ⟨h₁, _⟩ | ⟨h₁, _⟩ <;>
      rcases abs_cases (c.2 - goal.2) with ⟨h₂, _⟩ | ⟨h₂, _⟩ <;>
      rcases abs_cases (start.2 - goal.2) with ⟨h₃, _⟩ | ⟨h₃, _⟩ <;> omega

/-- On a grid with no blocked cells every geodesic is free. -/
theorem geoFree_of_all_free {start goal : Pos} {grid : Pos → ℕ} {w h : ℤ}
    (hs : inB w h start) (hg : inB w h goal)
    (hfree : ∀ p : Pos, inB w h p → grid p ≠ 1) : GeoFree start goal grid w h := by
  intro c hgeo _
  have hin := onGeo_inB hs hg hgeo
  exact ⟨hin, hfree c hin⟩

/-- The central optimality fact: whenever every geodesic cell apart from the
start is free, `a_star` returns a legal path from `start` to `goal` of exactly
`Manhattan(start, goal) + 1` cells. -/
theorem a_star_geo {start goal : Pos} {grid : Pos → ℕ} {w h : ℤ}
    (hgf : GeoFree start goal grid w h) :
    ∃ rest, a_star start goal grid w h = start :: rest ∧
      StepsOK grid w h start rest ∧
      (a_star start goal grid w h).getLast? = some goal ∧
      ((a_star start goal grid w h).length : ℤ) = heuristic start goal + 1 := by
  have hmain := aStarLoop_geo start goal grid w h hgf (fuelA w h)
    [⟨heuristic start goal, 0, start, [start]⟩] []
    (fun e he => by
      rcases List.mem_singleton.mp he with rfl
      exact ValidEnt.init start goal grid w h)
    ⟨⟨heuristic start goal, 0, start, [start]⟩, List.mem_singleton_self _,
      ValidEnt.init start goal grid w h, rfl, List.not_mem_nil _,
      fun c hc _ => absurd hc (List.not_mem_nil c)⟩
    (by
      have h₁ := card_allCells_le w h start
      simp only [List.length_singleton, List.toFinset_nil, Finset.sdiff_empty]
      unfold fuelA
      omega)
  rcases hmain with ⟨p, heq, ⟨rest, hp, hsok⟩, hlast, hlen⟩
  have hsearch : searchA start goal grid w h = some p := by
    unfold searchA
    rw [heq]
  have hastar : a_star start goal grid w h = p := by
    unfold a_star
    rw [hsearch]
    rfl
  exact ⟨rest, by rw [hastar, hp], hsok,
    by rw [hastar]; exact hlast, by rw [hastar]; exact hlen⟩

theorem a_star_cached_hit {start goal : Pos} {grid : Pos → ℕ} {w h : ℤ} {cache : Cache}
    {p : List Pos} (hhit : cache (start, goal) = some p) :
    a_star_cached start goal grid w h cache = (p, cache) := by
  unfold a_star_cached
  rw [hhit]

theorem a_star_cached_miss {start goal : Pos} {grid : Pos → ℕ} {w h : ℤ} {cache : Cache}
    (hmiss : cache (start, goal) = none) :
    a_star_cached start goal grid w h cache =
      (a_star start goal grid w h,
       fun k => if k = (start, goal) then some (a_star start goal grid w h) else cache k) := by
  unfold a_star_cached
  rw [hmiss]

end SimEngine

namespace SimEngine

theorem reaches_last_free {grid : Pos → ℕ} {w h : ℤ} {start goal : Pos}
    (hr : Reaches grid w h start goal) :
    goal = start ∨ (inB w h goal ∧ grid goal ≠ 1) := by
  cases hr with
  | refl => exact Or.inl rfl
  | tail _ _ hin hfree => exact Or.inr ⟨hin, hfree⟩

end SimEngine

/-- C1: on a grid with no blocked cells, `a_star(start, goal, grid, width,
height)` returns a 4-directionally connected sequence of positions beginning
at `start` and ending at `goal` whose length in cells is
`Manhattan(start, goal) + 1`; in particular on an empty 5×5 grid it returns
exactly `[(0,2),(1,2),(2,2)]` from `(0,2)` to `(2,2)`. -/
theorem claim_C1_path_optimality (w h : ℤ) (start goal : Pos) (grid : Pos → ℕ)
    (hs : inB w h start) (hg : inB w h goal)
    (hfree : ∀ p : Pos, inB w h p → grid p ≠ 1) :
    (∃ rest, SimEngine.a_star start goal grid w h = start :: rest ∧
        SimEngine.StepsOK grid w h start rest) ∧
    (SimEngine.a_star start goal grid w h).getLast? = some goal ∧
    ((SimEngine.a_star start goal grid w h).length : ℤ) = heuristic start goal + 1 ∧
    SimEngine.a_star (0,2) (2,2) (fun _ => 0) 5 5 = [(0,2),(1,2),(2,2)] := by
  rcases SimEngine.a_star_geo (SimEngine.geoFree_of_all_free hs hg hfree) with
    ⟨rest, h₁, h₂, h₃, h₄⟩
  exact ⟨⟨rest, h₁, h₂⟩, h₃, h₄, by decide⟩

/-- Witness for C1 at the concrete Scenario-B input. -/
theorem claim_C1_witness :
    (∃ rest, SimEngine.a_star (0,2) (2,2) (fun _ => 0) 5 5 = (0,2) :: rest ∧
        SimEngine.StepsOK (fun _ => 0) 5 5 (0,2) rest) ∧
    (SimEngine.a_star (0,2) (2,2) (fun _ => 0) 5 5).getLast? = some (2,2) ∧
    ((SimEngine.a_star (0,2) (2,2) (fun _ => 0) 5 5).length : ℤ) =
      heuristic (0,2) (2,2) + 1 ∧
    SimEngine.a_star (0,2) (2,2) (fun _ => 0) 5 5 = [(0,2),(1,2),(2,2)] :=
  claim_C1_path_optimality 5 5 (0,2) (2,2) (fun _ => 0) (by decide) (by decide)
    (fun p _ => by simp)

/-- C2: when no free-cell path exists, `a_star` returns the single-element
sequence `[start]` rather than a failure signal and stores it in the cache
under `(start, goal)`; any later call whose `(start, goal)` key is cached
returns the stored value without searching (the grid and bounds arguments are
not consulted at all). -/
theorem claim_C2_no_path_cached (start goal : Pos) (grid : Pos → ℕ) (w h : ℤ)
    (cache : SimEngine.Cache) (hmiss : cache (start, goal) = none)
    (hnp : ¬ SimEngine.Reaches grid w h start goal) :
    ((SimEngine.a_star_cached start goal grid w h cache).1 = [start] ∧
     (SimEngine.a_star_cached start goal grid w h cache).2 (start, goal) = some [start]) ∧
    ∀ (c : SimEngine.Cache) (p : List Pos), c (start, goal) = some p →
      ∀ (grid' : Pos → ℕ) (w' h' : ℤ),
        SimEngine.a_star_cached start goal grid' w' h' c = (p, c) := by
  constructor
  · have hres := SimEngine.a_star_of_no_path hnp
    rw [SimEngine.a_star_cached_miss hmiss, hres]
    exact ⟨rfl, by simp⟩
  · intro c p hc grid' w' h'
    exact SimEngine.a_star_cached_hit hc

/-- Witness for C2: a blocked goal cell on a 1×2 grid. -/
theorem claim_C2_witness :
    ((SimEngine.a_star_cached (0,0) (0,1) (fun p => if p = (0,1) then 1 else 0) 1 2
        SimEngine.Cache.empty).1 = [(0,0)] ∧
     (SimEngine.a_star_cached (0,0) (0,1) (fun p => if p = (0,1) then 1 else 0) 1 2
        SimEngine.Cache.empty).2 ((0,0), (0,1)) = some [(0,0)]) ∧
    ∀ (c : SimEngine.Cache) (p : List Pos), c ((0,0), (0,1)) = some p →
      ∀ (grid' : Pos → ℕ) (w' h' : ℤ),
        SimEngine.a_star_cached (0,0) (0,1) grid' w' h' c = (p, c) :=
  claim_C2_no_path_cached (0,0) (0,1) (fun p => if p = (0,1) then 1 else 0) 1 2
    SimEngine.Cache.empty rfl
    (fun hr => by
      rcases SimEngine.reaches_last_free hr with h' | h'
      · exact absurd h' (by decide)
      · exact h'.2 (by decide))

namespace SpecTieBreak

/-- A frontier entry of the tie-break discipline the spec prescribes
(section 4.2: frontier ordered by `g + h`, "ties broken by insertion order
... do not rely on Position ordering").  This definition follows the spec's
words, not the Python source, and exists to be compared with
`SimEngine.a_star`.  `seq` is the push sequence number. -/
structure IEnt where
  est : ℤ
  seq : ℤ
  cost : ℤ
  cur : Pos
  path : List Pos
deriving DecidableEq, Repr

/-- Frontier order per the spec: estimate first, then insertion order. -/
def iLe : IEnt → IEnt → Bool :=
  leOfCmp (cmpOn (cmpLex cmpInt cmpInt) (fun e => (e.est, e.seq)))

/-- Push the valid neighbors in the source's direction order, numbering them
in insertion order. -/
def iPush (goal : Pos) (grid : Pos → ℕ) (w h : ℤ) (e : IEnt) (closed : List Pos)
    (seq : ℤ) : List IEnt × ℤ :=
  SimEngine.dirs.foldl (fun acc d =>
    let n : Pos := (e.cur.1 + d.1, e.cur.2 + d.2)
    if inB w h n ∧ grid n ≠ 1 ∧ n ∉ closed then
      (acc.1 ++ [⟨e.cost + 1 + heuristic n goal, acc.2, e.cost + 1, n, e.path ++ [n]⟩],
       acc.2 + 1)
    else acc) ([], seq)

/-- The spec's A* loop: identical to the source's loop except that frontier
ties on `g + h` are broken by insertion order alone. -/
def specLoop (goal : Pos) (grid : Pos → ℕ) (w h : ℤ) :
    ℕ → List IEnt → List Pos → ℤ → Option (Option (List Pos))
  | 0, _, _, _ => none
  | fuel + 1, q, closed, seq =>
    match popMinBy iLe q with
    | none => some none
    | some (e, rest) =>
      if e.cur = goal then some (some e.path)
      else if e.cur ∈ closed then specLoop goal grid w h fuel rest closed seq
      else
        let pr := iPush goal grid w h e (e.cur :: closed) seq
        specLoop goal grid w h fuel (rest ++ pr.1) (e.cur :: closed) pr.2

/-- The path the spec's insertion-order tie-breaking yields (with the
source's `[start]` fallback). -/
def spec_a_star (start goal : Pos) (grid : Pos → ℕ) (w h : ℤ) : List Pos :=
  match specLoop goal grid w h (SimEngine.fuelA w h)
      [⟨heuristic start goal, 0, 0, start, [start]⟩] [] 1 with
  | some (some p) => p
  | _ => [start]

end SpecTieBreak

example : SpecTieBreak.spec_a_star (0,0) (1,1) (fun _ => 0) 2 2 = [(0,0),(1,0),(1,1)] := by
  decide

/-- C9 counterexample: on the empty 2×2 grid from `(0,0)` to `(1,1)` the
source's `a_star` does not return the path that insertion-order tie-breaking
determines, so frontier ties are not broken by insertion order. -/
theorem claim_C9_counterexample :
    SimEngine.a_star (0,0) (1,1) (fun _ => 0) 2 2 ≠
      SpecTieBreak.spec_a_star (0,0) (1,1) (fun _ => 0) 2 2 := by decide

/-- C9 amended: the heap entries are whole Python tuples
`(f, g, current, path)`, so ties on `f` are broken by smaller `g`, then by
`Position` coordinate order, then by path order — not by insertion order.  On
the empty 2×2 grid from `(0,0)` to `(1,1)` the source returns
`[(0,0),(0,1),(1,1)]` (the tuple-order tie-break) while insertion-order
tie-breaking would return `[(0,0),(1,0),(1,1)]`. -/
theorem claim_C9_tuple_tie_break :
    SimEngine.a_star (0,0) (1,1) (fun _ => 0) 2 2 = [(0,0),(0,1),(1,1)] ∧
    SpecTieBreak.spec_a_star (0,0) (1,1) (fun _ => 0) 2 2 = [(0,0),(1,0),(1,1)] := by
  exact ⟨by decide, by decide⟩

namespace SimEngine

/-- The congestion decay `Worker.decay_congestion`: every in-bounds cell with
a positive counter is decremented by one. -/
def decay_congestion (w h : ℤ) (m : Pos → ℤ) : Pos → ℤ :=
  fun p => if inB w h p ∧ 0 < m p then m p - 1 else m p

/-- Incrementing one cell of the shared activity map
(`self.activity_map[y][x] += 1`). -/
def bumpAt (m : Pos → ℤ) (c : Pos) : Pos → ℤ :=
  fun p => if p = c then m c + 1 else m p

/-- The congestion-derived traversal ticks of `Worker.run`:
`< 3 → 1`, `< 6 → 2`, else `3`. -/
def stepCost (a : ℤ) : ℤ := if a < 3 then 1 else if a < 6 then 2 else 3

/-- The walk state threaded through the `for cell in path` loop of
`Worker.run`: the shared activity map, the simulation clock, the per-order
step count and the per-worker steps-since-decay counter. -/
structure WalkSt where
  activity : Pos → ℤ
  now : ℤ
  steps : ℕ
  ssd : ℕ

/-- One iteration of the `for cell in path` loop of `Worker.run`: enter the
cell if it is in bounds, bump its counter, pay the congestion ticks computed
from the bumped value, count the step, and decay the whole map every
`decay_every` steps of this worker. -/
def stepCell (w h : ℤ) (decay_every : ℕ) (st : WalkSt) (c : Pos) : WalkSt :=
  if inB w h c then
    let act := bumpAt st.activity c
    let cost := stepCost (act c)
    let ssd' := st.ssd + 1
    if decay_every ≤ ssd' then
      { activity := decay_congestion w h act, now := st.now + cost,
        steps := st.steps + 1, ssd := 0 }
    else
      { activity := act, now := st.now + cost, steps := st.steps + 1, ssd := ssd' }
  else st

/-- Walking a whole path cell by cell. -/
def walkPath (w h : ℤ) (decay_every : ℕ) (st : WalkSt) (p : List Pos) : WalkSt :=
  p.foldl (stepCell w h decay_every) st

/-- Python `min(packing_stations, key=...)`: the first station of minimal
Manhattan distance, or `none` for the empty list (Python raises
`ValueError`). -/
def nearestStation (pos : Pos) : List Pos → Option Pos
  | [] => none
  | s :: ss => some (ss.foldl (fun best x =>
      if heuristic pos x < heuristic pos best then x else best) s)

/-- Python runtime errors `run_simulation` can raise. -/
inductive PyErr
  | zeroDivisionError
  | valueError
deriving DecidableEq, Repr

/-- The shared state of one simulation run: activity map, path cache, clock
and the `stats` dict. -/
structure SimShared where
  activity : Pos → ℤ
  cache : Cache
  now : ℤ
  pick_times : List ℤ
  distances : List ℕ
  orders_completed : ℕ

/-- The item loop of `Worker.run`: walk to each item in order, paying one
pick tick per item; returns the final position, the cache and the walk
state. -/
def runItems (grid : Pos → ℕ) (w h : ℤ) (de : ℕ) :
    List Pos → Pos → Cache → WalkSt → Pos × Cache × WalkSt
  | [], pos, cache, st => (pos, cache, st)
  | item :: rest, pos, cache, st =>
    let pc := a_star_cached pos item grid w h cache
    let st' := walkPath w h de st pc.1
    runItems grid w h de rest item pc.2 { st' with now := st'.now + 1 }

/-- One order in `Worker.run`: all items, then the Manhattan-nearest packing
station; on completion the pick time and the step count are recorded.  The
`ValueError` branch models Python's `min` over an empty station list. -/
def runOrder (grid : Pos → ℕ) (w h : ℤ) (de : ℕ) (entry : Pos)
    (stations : List Pos) (items : List Pos) (sh : SimShared) (ssd : ℕ) :
    Except PyErr (SimShared × ℕ) :=
  let st0 : WalkSt := ⟨sh.activity, sh.now, 0, ssd⟩
  let r := runItems grid w h de items entry sh.cache st0
  match nearestStation r.1 stations with
  | none => .error .valueError
  | some ps =>
    let pc := a_star_cached r.1 ps grid w h r.2.1
    let st := walkPath w h de r.2.2 pc.1
    .ok ({ activity := st.activity, cache := pc.2, now := st.now,
           pick_times := sh.pick_times ++ [st.now - sh.now],
           distances := sh.distances ++ [st.steps],
           orders_completed := sh.orders_completed + 1 }, st.ssd)

/-- A worker drains its assigned queue in FIFO order; its steps-since-decay
counter persists across its orders. -/
def runWorker (grid : Pos → ℕ) (w h : ℤ) (de : ℕ) (entry : Pos)
    (stations : List Pos) : List (List Pos) → SimShared → ℕ → Except PyErr SimShared
  | [], sh, _ => .ok sh
  | items :: more, sh, ssd =>
    match runOrder grid w h de entry stations items sh ssd with
    | .error e => .error e
    | .ok (sh', ssd') => runWorker grid w h de entry stations more sh' ssd'

/-- Round-robin assignment: order `i` goes to worker `i % num_workers`. -/
def assignRR (numWorkers : ℕ) (orders : List (List Pos)) (j : ℕ) : List (List Pos) :=
  (orders.enum.filter (fun oi => oi.1 % numWorkers = j)).map (fun oi => oi.2)

/-- All workers run, in id order, each starting with a fresh decay counter. -/
def runQueues (grid : Pos → ℕ) (w h : ℤ) (de : ℕ) (entry : Pos)
    (stations : List Pos) : List (List (List Pos)) → SimShared → Except PyErr SimShared
  | [], sh => .ok sh
  | q :: more, sh =>
    match runWorker grid w h de entry stations q sh 0 with
    | .error e => .error e
    | .ok sh' => runQueues grid w h de entry stations more sh'

/-- The configuration dict consumed by `run_simulation`. -/
structure SimConfig where
  grid_width : ℤ
  grid_height : ℤ
  shelf_positions : List Pos
  packing_stations : List Pos
  num_workers : ℕ
  orders : List (List Pos)

/-- The result dict of `run_simulation` (`average_pick_time` is a Python
float, embedded as an exact rational). -/
structure SimResult where
  average_pick_time : ℚ
  total_distance : ℕ
  orders_completed : ℕ
  activity_map : Pos → ℤ

/-- The grid built by `run_simulation`: in-bounds shelf cells block, anything
else (including out-of-bounds shelf coordinates) is silently free. -/
def buildGrid (w h : ℤ) (shelves : List Pos) : Pos → ℕ :=
  fun p => if inB w h p ∧ p ∈ shelves then 1 else 0

/-- The embedding of `run_simulation`.  The cooperative `simpy` interleaving
of the worker generators affects only tick timing and the time order of
activity-map updates, never which path a leg takes (paths depend only on the
grid and the deterministic shared cache, never on the activity map), how many
cells a leg walks, or how many orders complete; the embedding therefore
drains the workers one after another, which reproduces `orders_completed`,
the recorded distances and the raised errors of the event-driven run exactly
(pick times can differ under multi-worker interleaving and are not the
subject of any claim below).  `i % len(workers)` with zero workers raises
`ZeroDivisionError` as soon as one order is assigned; `min` over an empty
station sequence raises `ValueError`. -/
def run_simulation (cfg : SimConfig) : Except PyErr SimResult :=
  let grid := buildGrid cfg.grid_width cfg.grid_height cfg.shelf_positions
  if cfg.num_workers = 0 ∧ cfg.orders ≠ [] then .error .zeroDivisionError
  else
    let sh0 : SimShared := ⟨fun _ => 0, Cache.empty, 0, [], [], 0⟩
    let queues := (List.range cfg.num_workers).map (assignRR cfg.num_workers cfg.orders)
    match runQueues grid cfg.grid_width cfg.grid_height 20 (0, 0) cfg.packing_stations
        queues sh0 with
    | .error e => .error e
    | .ok sh =>
      .ok { average_pick_time :=
              if sh.orders_completed = 0 then 0
              else (sh.pick_times.sum : ℚ) / (sh.orders_completed : ℚ),
            total_distance := sh.distances.sum,
            orders_completed := sh.orders_completed,
            activity_map := sh.activity }

/-- The number of in-bounds cells of a path: exactly the iterations of the
`for cell in path` loop that count a step. -/
def inBCount (w h : ℤ) (p : List Pos) : ℕ :=
  p.countP (fun c => decide (inB w h c))

/-- The steps the item legs of one order contribute. -/
def itemsSteps (grid : Pos → ℕ) (w h : ℤ) : Pos → List Pos → ℕ
  | _, [] => 0
  | pos, item :: rest =>
    inBCount w h (a_star pos item grid w h) + itemsSteps grid w h item rest

/-- The steps one whole order contributes: item legs plus the leg to the
nearest packing station. -/
def orderSteps (grid : Pos → ℕ) (w h : ℤ) (stations : List Pos)
    (entry : Pos) (items : List Pos) : ℕ :=
  itemsSteps grid w h entry items +
    match nearestStation (items.getLastD entry) stations with
    | some ps => inBCount w h (a_star (items.getLastD entry) ps grid w h)
    | none => 0

/-- The cell-to-cell moves of one order's legs (each leg's path length minus
one), the quantity the spec's P4 asserts `total_distance` equals. -/
def itemsMoves (grid : Pos → ℕ) (w h : ℤ) : Pos → List Pos → ℕ
  | _, [] => 0
  | pos, item :: rest =>
    ((a_star pos item grid w h).length - 1) + itemsMoves grid w h item rest

/-- Cell-to-cell moves of a whole order, station leg included. -/
def orderMoves (grid : Pos → ℕ) (w h : ℤ) (stations : List Pos)
    (entry : Pos) (items : List Pos) : ℕ :=
  itemsMoves grid w h entry items +
    match nearestStation (items.getLastD entry) stations with
    | some ps => (a_star (items.getLastD entry) ps grid w h).length - 1
    | none => 0

end SimEngine

example : (SimEngine.run_simulation ⟨1, 1, [], [], 0, []⟩).map
    (fun r => (r.orders_completed, r.total_distance)) = .ok (0, 0) := rfl

example : SimEngine.run_simulation ⟨1, 1, [], [(0,0)], 0, [[(0,0)]]⟩ = .error .zeroDivisionError :=
  rfl

example : SimEngine.run_simulation ⟨1, 1, [], [], 1, [[]]⟩ = .error .valueError := rfl

example : (SimEngine.run_simulation ⟨2, 2, [], [(1,1)], 1, [[(0,1)]]⟩).map
    (fun r => (r.orders_completed, r.total_distance)) = .ok (1, 4) := rfl

namespace SimEngine

theorem stepCell_steps (w h : ℤ) (de : ℕ) (st : WalkSt) (c : Pos) :
    (stepCell w h de st c).steps = st.steps + (if inB w h c then 1 else 0) := by
  unfold stepCell
  by_cases hin : inB w h c
  · rw [if_pos hin, if_pos hin]
    by_cases hd : de ≤ st.ssd + 1
    · rw [if_pos hd]
    · rw [if_neg hd]
  · rw [if_neg hin, if_neg hin]
    omega

theorem walkPath_steps (w h : ℤ) (de : ℕ) (p : List Pos) :
    ∀ st : WalkSt, (walkPath w h de st p).steps = st.steps + inBCount w h p := by
  induction p with
  | nil => intro st; simp [walkPath, inBCount]
  | cons c cs ih =>
    intro st
    have h₁ : walkPath w h de st (c :: cs) = walkPath w h de (stepCell w h de st c) cs := by
      rw [walkPath, walkPath, List.foldl_cons]
    rw [h₁, ih, stepCell_steps]
    unfold inBCount
    rw [List.countP_cons]
    by_cases hin : inB w h c <;> simp [hin] <;> omega

/-- Correctness of cache contents: every stored value is what the search
would compute. -/
def CacheOK (grid : Pos → ℕ) (w h : ℤ) (cache : Cache) : Prop :=
  ∀ s g p, cache (s, g) = some p → p = a_star s g grid w h

theorem cacheOK_empty (grid : Pos → ℕ) (w h : ℤ) : CacheOK grid w h Cache.empty :=
  fun _ _ _ hx => by cases hx

theorem a_star_cached_fst {s g : Pos} {grid : Pos → ℕ} {w h : ℤ} {cache : Cache}
    (hok : CacheOK grid w h cache) :
    (a_star_cached s g grid w h cache).1 = a_star s g grid w h := by
  unfold a_star_cached
  rcases hc : cache (s, g) with _ | p
  · rfl
  · show p = a_star s g grid w h
    exact hok s g p hc

theorem a_star_cached_snd {s g : Pos} {grid : Pos → ℕ} {w h : ℤ} {cache : Cache}
    (hok : CacheOK grid w h cache) :
    CacheOK grid w h (a_star_cached s g grid w h cache).2 := by
  unfold a_star_cached
  rcases hc : cache (s, g) with _ | p
  · intro s' g' p' hp'
    dsimp only at hp'
    by_cases hk : ((s', g') : Pos × Pos) = (s, g)
    · rw [if_pos hk] at hp'
      cases hp'
      rcases Prod.mk.injEq .. ▸ hk with ⟨hs, hg⟩
      rw [hs, hg]
    · rw [if_neg hk] at hp'
      exact hok s' g' p' hp'
  · exact hok

theorem nearestStation_isSome {pos : Pos} {stations : List Pos} (hst : stations ≠ []) :
    ∃ ps, nearestStation pos stations = some ps := by
  cases stations with
  | nil => exact absurd rfl hst
  | cons s ss => exact ⟨_, rfl⟩

end SimEngine

namespace SimEngine

theorem runItems_spec (grid : Pos → ℕ) (w h : ℤ) (de : ℕ) :
    ∀ (items : List Pos) (pos : Pos) (cache : Cache) (st : WalkSt),
      CacheOK grid w h cache →
      (runItems grid w h de items pos cache st).1 = items.getLastD pos ∧
      CacheOK grid w h (runItems grid w h de items pos cache st).2.1 ∧
      (runItems grid w h de items pos cache st).2.2.steps =
        st.steps + itemsSteps grid w h pos items := by
  intro items
  induction items with
  | nil =>
    intro pos cache st hok
    exact ⟨rfl, hok, by simp [runItems, itemsSteps]⟩
  | cons item rest ih =>
    intro pos cache st hok
    have h₁ : (a_star_cached pos item grid w h cache).1 = a_star pos item grid w h :=
      a_star_cached_fst hok
    have h₂ : CacheOK grid w h (a_star_cached pos item grid w h cache).2 :=
      a_star_cached_snd hok
    obtain ⟨ha, hb, hc⟩ := ih item (a_star_cached pos item grid w h cache).2
      { walkPath w h de st (a_star_cached pos item grid w h cache).1 with
        now := (walkPath w h de st (a_star_cached pos item grid w h cache).1).now + 1 } h₂
    rw [runItems]
    refine ⟨?_, ?_, ?_⟩
    · rw [ha, List.getLastD_cons]
    · exact hb
    · rw [hc]
      have h₃ : ({ walkPath w h de st (a_star_cached pos item grid w h cache).1 with
          now := (walkPath w h de st (a_star_cached pos item grid w h cache).1).now + 1
          } : WalkSt).steps =
          (walkPath w h de st (a_star_cached pos item grid w h cache).1).steps := rfl
      rw [h₃, walkPath_steps, h₁, itemsSteps]
      omega

theorem runOrder_spec (grid : Pos → ℕ) (w h : ℤ) (de : ℕ) (entry : Pos)
    (stations : List Pos) (items : List Pos) (sh : SimShared) (ssd : ℕ)
    (hok : CacheOK grid w h sh.cache) (hst : stations ≠ []) :
    ∃ sh' ssd', runOrder grid w h de entry stations items sh ssd = .ok (sh', ssd') ∧
      sh'.distances = sh.distances ++ [orderSteps grid w h stations entry items] ∧
      sh'.orders_completed = sh.orders_completed + 1 ∧
      CacheOK grid w h sh'.cache := by
  obtain ⟨ha, hb, hc⟩ := runItems_spec grid w h de items entry sh.cache
    ⟨sh.activity, sh.now, 0, ssd⟩ hok
  obtain ⟨ps, hps⟩ := @nearestStation_isSome
    ((runItems grid w h de items entry sh.cache ⟨sh.activity, sh.now, 0, ssd⟩).1)
    stations hst
  rw [runOrder]
  rw [hps]
  dsimp only
  refine ⟨_, _, rfl, ?_, rfl, ?_⟩
  · have h₄ : (a_star_cached
        (runItems grid w h de items entry sh.cache ⟨sh.activity, sh.now, 0, ssd⟩).1 ps grid w
        h (runItems grid w h de items entry sh.cache ⟨sh.activity, sh.now, 0, ssd⟩).2.1).1 =
        a_star (items.getLastD entry) ps grid w h := by
      rw [a_star_cached_fst hb, ha]
    rw [walkPath_steps, h₄, hc]
    unfold orderSteps
    rw [ha] at hps
    rw [hps]
    simp
  · exact a_star_cached_snd hb

theorem runWorker_spec (grid : Pos → ℕ) (w h : ℤ) (de : ℕ) (entry : Pos)
    (stations : List Pos) (hst : stations ≠ []) :
    ∀ (queue : List (List Pos)) (sh : SimShared) (ssd : ℕ),
      CacheOK grid w h sh.cache →
      ∃ sh', runWorker grid w h de entry stations queue sh ssd = .ok sh' ∧
        sh'.distances = sh.distances ++ queue.map (orderSteps grid w h stations entry) ∧
        sh'.orders_completed = sh.orders_completed + queue.length ∧
        CacheOK grid w h sh'.cache := by
  intro queue
  induction queue with
  | nil =>
    intro sh ssd hok
    exact ⟨sh, rfl, by simp, by simp, hok⟩
  | cons items more ih =>
    intro sh ssd hok
    obtain ⟨sh', ssd', hrun, hdist, hcomp, hok'⟩ :=
      runOrder_spec grid w h de entry stations items sh ssd hok hst
    obtain ⟨sh'', hrun'', hdist'', hcomp'', hok''⟩ := ih sh' ssd' hok'
    refine ⟨sh'', ?_, ?_, ?_, hok''⟩
    · rw [runWorker, hrun]
      exact hrun''
    · rw [hdist'', hdist]
      simp
    · rw [hcomp'', hcomp, List.length_cons]
      omega

theorem runQueues_spec (grid : Pos → ℕ) (w h : ℤ) (de : ℕ) (entry : Pos)
    (stations : List Pos) (hst : stations ≠ []) :
    ∀ (queues : List (List (List Pos))) (sh : SimShared),
      CacheOK grid w h sh.cache →
      ∃ sh', runQueues grid w h de entry stations queues sh = .ok sh' ∧
        sh'.distances = sh.distances ++
          (queues.map (fun q => q.map (orderSteps grid w h stations entry))).flatten ∧
        sh'.orders_completed = sh.orders_completed + (queues.map List.length).sum ∧
        CacheOK grid w h sh'.cache := by
  intro queues
  induction queues with
  | nil =>
    intro sh hok
    exact ⟨sh, rfl, by simp, by simp, hok⟩
  | cons q more ih =>
    intro sh hok
    obtain ⟨sh', hrun, hdist, hcomp, hok'⟩ :=
      runWorker_spec grid w h de entry stations hst q sh 0 hok
    obtain ⟨sh'', hrun'', hdist'', hcomp'', hok''⟩ := ih sh' hok'
    refine ⟨sh'', ?_, ?_, ?_, hok''⟩
    · rw [runQueues, hrun]
      exact hrun''
    · rw [hdist'', hdist]
      simp
    · rw [hcomp'', hcomp]
      simp
      omega

end SimEngine

namespace SimEngine

theorem sum_map_add {α : Type} (l : List α) (f g : α → ℕ) :
    (l.map (fun x => f x + g x)).sum = (l.map f).sum + (l.map g).sum := by
  induction l with
  | nil => simp
  | cons x xs ih => simp [ih]; omega

theorem sum_range_ite (v : ℕ) : ∀ (W k : ℕ),
    ((List.range W).map (fun j => if k = j then v else 0)).sum =
      if k < W then v else 0 := by
  intro W
  induction W with
  | zero => intro k; simp
  | succ n ih =>
    intro k
    rw [List.range_succ, List.map_append, List.sum_append, ih]
    by_cases h₁ : k < n
    · have h₂ : ¬ k = n := by omega
      have h₃ : k < n + 1 := by omega
      simp [h₁, h₂, h₃]
    · by_cases h₂ : k = n
      · subst h₂
        simp [h₁]
      · have h₃ : ¬ k < n + 1 := by omega
        simp [h₁, h₂, h₃]

theorem sum_filter_mod {α : Type} (W : ℕ) (hW : 0 < W) (f : α → ℕ) :
    ∀ (l : List (ℕ × α)),
      ((List.range W).map (fun j =>
          ((l.filter (fun x => x.1 % W = j)).map (fun x => f x.2)).sum)).sum =
        (l.map (fun x => f x.2)).sum := by
  intro l
  induction l with
  | nil => simp
  | cons x l' ih =>
    have hterm : ∀ j, (((x :: l').filter (fun y => y.1 % W = j)).map
        (fun y => f y.2)).sum =
        (if x.1 % W = j then f x.2 else 0) +
          ((l'.filter (fun y => y.1 % W = j)).map (fun y => f y.2)).sum := by
      intro j
      by_cases hx : x.1 % W = j
      · rw [List.filter_cons_of_pos (by simpa using hx), List.map_cons, List.sum_cons,
          if_pos hx]
      · rw [List.filter_cons_of_neg (by simpa using hx), if_neg hx]
        omega
    have hcongr : (List.range W).map (fun j =>
        (((x :: l').filter (fun y => y.1 % W = j)).map (fun y => f y.2)).sum) =
        (List.range W).map (fun j =>
          (if x.1 % W = j then f x.2 else 0) +
            ((l'.filter (fun y => y.1 % W = j)).map (fun y => f y.2)).sum) :=
      List.map_congr_left (fun j _ => hterm j)
    rw [hcongr, sum_map_add, ih, sum_range_ite]
    have hlt : x.1 % W < W := Nat.mod_lt _ hW
    rw [if_pos hlt, List.map_cons, List.sum_cons]

theorem sum_assignRR (W : ℕ) (hW : 0 < W) (f : List Pos → ℕ)
    (orders : List (List Pos)) :
    ((List.range W).map (fun j => ((assignRR W orders j).map f).sum)).sum =
      (orders.map f).sum := by
  have h₁ : ∀ j, ((assignRR W orders j).map f).sum =
      ((orders.enum.filter (fun x => x.1 % W = j)).map (fun x => f x.2)).sum := by
    intro j
    unfold assignRR
    rw [List.map_map]
    rfl
  have hcongr : (List.range W).map (fun j => ((assignRR W orders j).map f).sum) =
      (List.range W).map (fun j =>
        ((orders.enum.filter (fun x => x.1 % W = j)).map (fun x => f x.2)).sum) :=
    List.map_congr_left (fun j _ => h₁ j)
  rw [hcongr, sum_filter_mod W hW]
  have h₂ : orders.enum.map (fun x => f x.2) = orders.map f := by
    rw [show (fun x : ℕ × List Pos => f x.2) = f ∘ Prod.snd from rfl, ← List.map_map,
      List.enum_map_snd]
  rw [h₂]

end SimEngine

namespace SimEngine

theorem sum_map_one {α : Type} (l : List α) : (l.map (fun _ => (1 : ℕ))).sum = l.length := by
  induction l with
  | nil => simp
  | cons x xs ih => simp [ih]; omega

/-- Everything `run_simulation` reports about distances and completion, for
any runnable configuration: every order completes and `total_distance` is the
sum over all orders of the in-bounds cells of all leg paths. -/
theorem run_simulation_spec (cfg : SimConfig)
    (hW : 0 < cfg.num_workers) (hst : cfg.packing_stations ≠ []) :
    ∃ r, run_simulation cfg = .ok r ∧
      r.orders_completed = cfg.orders.length ∧
      r.total_distance = (cfg.orders.map
        (orderSteps (buildGrid cfg.grid_width cfg.grid_height cfg.shelf_positions)
          cfg.grid_width cfg.grid_height cfg.packing_stations (0, 0))).sum := by
  unfold run_simulation
  have hcond : ¬ (cfg.num_workers = 0 ∧ cfg.orders ≠ []) := by
    rintro ⟨h0, _⟩
    omega
  rw [if_neg hcond]
  dsimp only
  obtain ⟨sh, hrun, hdist, hcomp, _⟩ := runQueues_spec
    (buildGrid cfg.grid_width cfg.grid_height cfg.shelf_positions)
    cfg.grid_width cfg.grid_height 20 (0, 0) cfg.packing_stations hst
    ((List.range cfg.num_workers).map (assignRR cfg.num_workers cfg.orders))
    ⟨fun _ => 0, Cache.empty, 0, [], [], 0⟩ (cacheOK_empty _ _ _)
  rw [hrun]
  dsimp only
  refine ⟨_, rfl, ?_, ?_⟩
  · show sh.orders_completed = cfg.orders.length
    rw [hcomp]
    rw [List.map_map]
    have h₁ : (List.range cfg.num_workers).map
        (List.length ∘ assignRR cfg.num_workers cfg.orders) =
        (List.range cfg.num_workers).map (fun j =>
          ((assignRR cfg.num_workers cfg.orders j).map (fun _ => (1 : ℕ))).sum) :=
      List.map_congr_left (fun j _ => by
        rw [Function.comp_apply, sum_map_one])
    rw [h₁, sum_assignRR cfg.num_workers hW (fun _ => 1) cfg.orders, sum_map_one]
    simp
  · show sh.distances.sum = _
    rw [hdist]
    rw [List.nil_append, List.sum_flatten, List.map_map, List.map_map]
    have h₂ := sum_assignRR cfg.num_workers hW
      (orderSteps (buildGrid cfg.grid_width cfg.grid_height cfg.shelf_positions)
        cfg.grid_width cfg.grid_height cfg.packing_stations (0, 0)) cfg.orders
    rw [← h₂]
    rfl

end SimEngine

namespace SimEngine

theorem buildGrid_eq_one {w h : ℤ} {shelves : List Pos} {p : Pos}
    (h₁ : buildGrid w h shelves p = 1) : inB w h p ∧ p ∈ shelves := by
  unfold buildGrid at h₁
  by_cases hc : inB w h p ∧ p ∈ shelves
  · exact hc
  · rw [if_neg hc] at h₁
    cases h₁

theorem inBCount_eq_length {grid : Pos → ℕ} {w h : ℤ} {start : Pos} {rest : List Pos}
    (hstart : inB w h start) (hsok : StepsOK grid w h start rest) :
    inBCount w h (start :: rest) = (start :: rest).length := by
  unfold inBCount
  rw [List.countP_eq_length]
  intro a ha
  rcases List.mem_cons.mp ha with rfl | ha
  · simpa using hstart
  · simpa using (stepsOK_all_inB hsok a ha).1

theorem decay_congestion_le (w h : ℤ) (m : Pos → ℤ) (p : Pos) :
    decay_congestion w h m p ≤ m p := by
  unfold decay_congestion
  split
  · omega
  · exact le_refl _

theorem decay_congestion_nonneg (w h : ℤ) (m : Pos → ℤ) (hnn : ∀ p, 0 ≤ m p) (p : Pos) :
    0 ≤ decay_congestion w h m p := by
  unfold decay_congestion
  split
  · rename_i hcond
    omega
  · exact hnn p

theorem decay_congestion_iter_nonneg (w h : ℤ) (m : Pos → ℤ) (hnn : ∀ p, 0 ≤ m p) :
    ∀ (D : ℕ) (p : Pos), 0 ≤ (decay_congestion w h)^[D] m p := by
  intro D
  induction D with
  | zero => exact hnn
  | succ n ih =>
    intro p
    rw [Function.iterate_succ_apply']
    exact decay_congestion_nonneg w h _ ih p

end SimEngine

/-- C7: every time a worker enters an in-bounds cell, that cell's activity
counter is incremented by one and the ticks paid for the step are derived
from the incremented value (`< 3 → 1`, `< 6 → 2`, else `3`); the counters
never influence which path is taken: legs with the same grid and cache but
arbitrary walk states produce the same caches (hence the same paths) and the
same step counts. -/
theorem claim_C7_congestion_cost (w h : ℤ) (de : ℕ) (st : SimEngine.WalkSt) (c : Pos)
    (hin : inB w h c) :
    (SimEngine.bumpAt st.activity c c = st.activity c + 1 ∧
     (∀ p, p ≠ c → SimEngine.bumpAt st.activity c p = st.activity p) ∧
     (SimEngine.stepCell w h de st c).now =
        st.now + SimEngine.stepCost (st.activity c + 1) ∧
     SimEngine.stepCost (st.activity c + 1) =
        (if st.activity c + 1 < 3 then 1 else if st.activity c + 1 < 6 then 2 else 3)) ∧
    ∀ (items : List Pos) (pos : Pos) (grid : Pos → ℕ) (cache : SimEngine.Cache)
      (st₁ st₂ : SimEngine.WalkSt), st₁.steps = st₂.steps →
        (SimEngine.runItems grid w h de items pos cache st₁).2.1 =
          (SimEngine.runItems grid w h de items pos cache st₂).2.1 ∧
        (SimEngine.runItems grid w h de items pos cache st₁).2.2.steps =
          (SimEngine.runItems grid w h de items pos cache st₂).2.2.steps := by
  constructor
  · refine ⟨by simp [SimEngine.bumpAt], fun p hp => by simp [SimEngine.bumpAt, hp], ?_, rfl⟩
    unfold SimEngine.stepCell
    rw [if_pos hin]
    have hb : SimEngine.bumpAt st.activity c c = st.activity c + 1 := by
      simp [SimEngine.bumpAt]
    by_cases hd : de ≤ st.ssd + 1
    · rw [if_pos hd]
      dsimp only
      rw [hb]
    · rw [if_neg hd]
      dsimp only
      rw [hb]
  · intro items
    induction items with
    | nil => intro pos grid cache st₁ st₂ hsteps; exact ⟨rfl, hsteps⟩
    | cons item rest ih =>
      intro pos grid cache st₁ st₂ hsteps
      have hs : (SimEngine.walkPath w h de st₁
            (SimEngine.a_star_cached pos item grid w h cache).1).steps =
          (SimEngine.walkPath w h de st₂
            (SimEngine.a_star_cached pos item grid w h cache).1).steps := by
        rw [SimEngine.walkPath_steps, SimEngine.walkPath_steps, hsteps]
      exact ih item grid (SimEngine.a_star_cached pos item grid w h cache).2
        { SimEngine.walkPath w h de st₁ (SimEngine.a_star_cached pos item grid w h cache).1
            with now := _ + 1 }
        { SimEngine.walkPath w h de st₂ (SimEngine.a_star_cached pos item grid w h cache).1
            with now := _ + 1 } hs

/-- Witness for C7 at a concrete in-bounds cell. -/
theorem claim_C7_witness :
    (SimEngine.bumpAt (fun _ => 0) (0,0) (0,0) = 0 + 1 ∧
     (∀ p, p ≠ ((0:ℤ), (0:ℤ)) → SimEngine.bumpAt (fun _ => 0) (0,0) p = 0) ∧
     (SimEngine.stepCell 2 2 20 ⟨fun _ => 0, 0, 0, 0⟩ (0,0)).now =
        0 + SimEngine.stepCost (0 + 1) ∧
     SimEngine.stepCost (0 + 1) = (if (0:ℤ) + 1 < 3 then 1 else if (0:ℤ) + 1 < 6 then 2 else 3)) ∧
    ∀ (items : List Pos) (pos : Pos) (grid : Pos → ℕ) (cache : SimEngine.Cache)
      (st₁ st₂ : SimEngine.WalkSt), st₁.steps = st₂.steps →
        (SimEngine.runItems grid 2 2 20 items pos cache st₁).2.1 =
          (SimEngine.runItems grid 2 2 20 items pos cache st₂).2.1 ∧
        (SimEngine.runItems grid 2 2 20 items pos cache st₁).2.2.steps =
          (SimEngine.runItems grid 2 2 20 items pos cache st₂).2.2.steps :=
  claim_C7_congestion_cost 2 2 20 ⟨fun _ => 0, 0, 0, 0⟩ (0,0) (by decide)

/-- C8: each worker's own step counter triggers, every `decay_every` steps, a
decay of the whole shared map by one per cell with floor 0; iterating the
decay on a nonnegative map is pointwise non-increasing and never drops below
zero. -/
theorem claim_C8_decay_monotone (w h : ℤ) (de : ℕ) (st : SimEngine.WalkSt) (c : Pos)
    (m : Pos → ℤ) (hin : inB w h c) (hnn : ∀ p, 0 ≤ m p) :
    ((SimEngine.stepCell w h de st c).ssd = if de ≤ st.ssd + 1 then 0 else st.ssd + 1) ∧
    ((SimEngine.stepCell w h de st c).activity =
      if de ≤ st.ssd + 1 then
        SimEngine.decay_congestion w h (SimEngine.bumpAt st.activity c)
      else SimEngine.bumpAt st.activity c) ∧
    ∀ (D : ℕ) (p : Pos),
      (SimEngine.decay_congestion w h)^[D + 1] m p ≤
        (SimEngine.decay_congestion w h)^[D] m p ∧
      0 ≤ (SimEngine.decay_congestion w h)^[D] m p := by
  refine ⟨?_, ?_, ?_⟩
  · unfold SimEngine.stepCell
    rw [if_pos hin]
    by_cases hd : de ≤ st.ssd + 1
    · rw [if_pos hd, if_pos hd]
    · rw [if_neg hd, if_neg hd]
  · unfold SimEngine.stepCell
    rw [if_pos hin]
    by_cases hd : de ≤ st.ssd + 1
    · rw [if_pos hd, if_pos hd]
    · rw [if_neg hd, if_neg hd]
  · intro D p
    constructor
    · rw [Function.iterate_succ_apply']
      exact SimEngine.decay_congestion_le w h _ p
    · exact SimEngine.decay_congestion_iter_nonneg w h m hnn D p

/-- Witness for C8 at a concrete cell and map. -/
theorem claim_C8_witness :
    ((SimEngine.stepCell 2 2 20 ⟨fun _ => 0, 0, 0, 0⟩ (0,0)).ssd =
        if 20 ≤ 0 + 1 then 0 else 0 + 1) ∧
    ((SimEngine.stepCell 2 2 20 ⟨fun _ => 0, 0, 0, 0⟩ (0,0)).activity =
      if 20 ≤ 0 + 1 then
        SimEngine.decay_congestion 2 2 (SimEngine.bumpAt (fun _ => 0) (0,0))
      else SimEngine.bumpAt (fun _ => 0) (0,0)) ∧
    ∀ (D : ℕ) (p : Pos),
      (SimEngine.decay_congestion 2 2)^[D + 1] (fun _ => 1) p ≤
        (SimEngine.decay_congestion 2 2)^[D] (fun _ => 1) p ∧
      0 ≤ (SimEngine.decay_congestion 2 2)^[D] (fun _ => 1) p :=
  claim_C8_decay_monotone 2 2 20 ⟨fun _ => 0, 0, 0, 0⟩ (0,0) (fun _ => 1) (by decide)
    (fun _ => by norm_num)

/-- C10 counterexample: `run_simulation` performs no configuration
validation.  With zero workers and no orders it completes normally with zero
metrics instead of rejecting; with zero workers and one order it dies with an
unhandled `ZeroDivisionError`; with a worker and zero packing stations it
dies mid-run with an unhandled `ValueError`.  None of these is an explicit
rejected-result value. -/
theorem claim_C10_counterexample :
    (SimEngine.run_simulation ⟨1, 1, [], [], 0, []⟩).map
        (fun r => (r.orders_completed, r.total_distance)) = .ok (0, 0) ∧
    SimEngine.run_simulation ⟨1, 1, [], [(0,0)], 0, [[(0,0)]]⟩ =
      .error .zeroDivisionError ∧
    SimEngine.run_simulation ⟨1, 1, [], [], 1, [[]]⟩ = .error .valueError :=
  ⟨rfl, rfl, rfl⟩

/-- C10 amended: `run_simulation` never validates its configuration.  Zero
workers with a nonempty order list raises `ZeroDivisionError` at assignment;
zero workers with no orders completes normally with zero metrics; shelf
coordinates outside the grid are silently dropped when the grid is built. -/
theorem claim_C10_no_validation (cfg : SimEngine.SimConfig) :
    (cfg.num_workers = 0 → cfg.orders ≠ [] →
        SimEngine.run_simulation cfg = .error .zeroDivisionError) ∧
    (cfg.num_workers = 0 → cfg.orders = [] →
        ∃ r, SimEngine.run_simulation cfg = .ok r ∧ r.orders_completed = 0 ∧
          r.total_distance = 0) ∧
    ∀ p : Pos, ¬ inB cfg.grid_width cfg.grid_height p →
      SimEngine.buildGrid cfg.grid_width cfg.grid_height cfg.shelf_positions p = 0 := by
  refine ⟨?_, ?_, ?_⟩
  · intro h0 hne
    unfold SimEngine.run_simulation
    rw [if_pos ⟨h0, hne⟩]
  · intro h0 horders
    unfold SimEngine.run_simulation
    rw [if_neg (by rintro ⟨_, hne⟩; exact hne horders)]
    rw [h0]
    exact ⟨_, rfl, rfl, rfl⟩
  · intro p hp
    unfold SimEngine.buildGrid
    rw [if_neg (by rintro ⟨hin, _⟩; exact hp hin)]

/-- Witness for C10: the zero-worker configurations. -/
theorem claim_C10_witness :
    SimEngine.run_simulation ⟨1, 1, [], [(0,0)], 0, [[(0,0)]]⟩ =
      .error .zeroDivisionError :=
  (claim_C10_no_validation ⟨1, 1, [], [(0,0)], 0, [[(0,0)]]⟩).1 rfl (by simp)

/-- Scenario A of the spec: 12×8 grid, shelves at `(3,3)` and `(5,3)`,
stations at `(2,0)` and `(8,0)`, one worker, one order `[(3,3)]`. -/
def scenarioA : SimEngine.SimConfig :=
  ⟨12, 8, [(3,3), (5,3)], [(2,0), (8,0)], 1, [[(3,3)]]⟩

/-- C3 counterexample: in Scenario A the order completes with
`total_distance = 6`, but the cell-to-cell moves of the two legs sum to `4`:
`Worker.run` counts every cell of each leg's path — including the cell the
leg starts on — not the moves between cells. -/
theorem claim_C3_counterexample :
    ∃ r, SimEngine.run_simulation scenarioA = .ok r ∧
      r.orders_completed = 1 ∧ r.total_distance = 6 ∧
      (scenarioA.orders.map
        (SimEngine.orderMoves (SimEngine.buildGrid 12 8 scenarioA.shelf_positions)
          12 8 scenarioA.packing_stations (0, 0))).sum = 4 ∧
      r.total_distance ≠ (scenarioA.orders.map
        (SimEngine.orderMoves (SimEngine.buildGrid 12 8 scenarioA.shelf_positions)
          12 8 scenarioA.packing_stations (0, 0))).sum := by
  obtain ⟨r, hok, hcomp, hdist⟩ := SimEngine.run_simulation_spec scenarioA
    (by norm_num [scenarioA]) (by simp [scenarioA])
  have hleg1 : SimEngine.a_star (0,0) (3,3)
      (SimEngine.buildGrid 12 8 scenarioA.shelf_positions) 12 8 = [(0,0)] := by
    apply SimEngine.a_star_of_no_path
    intro hr
    rcases SimEngine.reaches_last_free hr with h' | h'
    · exact absurd h' (by decide)
    · exact h'.2 (by decide)
  have hgf : SimEngine.GeoFree (3,3) (2,0)
      (SimEngine.buildGrid 12 8 scenarioA.shelf_positions) 12 8 := by
    intro c hgeo hne
    have hin := SimEngine.onGeo_inB (w := 12) (h := 8) (by decide) (by decide) hgeo
    refine ⟨hin, ?_⟩
    intro hone
    have hmem := (SimEngine.buildGrid_eq_one hone).2
    have hcases : c = (3,3) ∨ c = (5,3) := by
      simpa [scenarioA] using hmem
    rcases hcases with rfl | rfl
    · exact hne rfl
    · exact absurd hgeo (by decide)
  obtain ⟨rest, heq2, hsok2, hlast2, hlen2⟩ := SimEngine.a_star_geo hgf
  have hlen5 : (SimEngine.a_star (3,3) (2,0)
      (SimEngine.buildGrid 12 8 scenarioA.shelf_positions) 12 8).length = 5 := by
    have hmh : heuristic (3,3) (2,0) = 4 := by decide
    rw [hmh] at hlen2
    omega
  have hcount : SimEngine.inBCount 12 8 (SimEngine.a_star (3,3) (2,0)
      (SimEngine.buildGrid 12 8 scenarioA.shelf_positions) 12 8) = 5 := by
    rw [heq2]
    rw [SimEngine.inBCount_eq_length (by decide) hsok2]
    rw [← heq2, hlen5]
  have hld : (([(3,3)] : List Pos)).getLastD (0,0) = (3,3) := rfl
  have hns : SimEngine.nearestStation (3,3) scenarioA.packing_stations = some (2,0) := by
    decide
  have hsteps : SimEngine.orderSteps (SimEngine.buildGrid 12 8 scenarioA.shelf_positions)
      12 8 scenarioA.packing_stations (0,0) [(3,3)] = 6 := by
    unfold SimEngine.orderSteps
    rw [hld, hns]
    dsimp only
    unfold SimEngine.itemsSteps
    rw [hleg1, hcount]
    decide
  have hmoves : SimEngine.orderMoves (SimEngine.buildGrid 12 8 scenarioA.shelf_positions)
      12 8 scenarioA.packing_stations (0,0) [(3,3)] = 4 := by
    unfold SimEngine.orderMoves
    rw [hld, hns]
    dsimp only
    unfold SimEngine.itemsMoves
    rw [hleg1, hlen5]
    decide
  refine ⟨r, hok, by simpa [scenarioA] using hcomp, ?_, ?_, ?_⟩
  · rw [hdist]
    show ([SimEngine.orderSteps (SimEngine.buildGrid 12 8 scenarioA.shelf_positions)
        12 8 scenarioA.packing_stations (0,0) [(3,3)]] : List ℕ).sum = 6
    rw [hsteps]
    rfl
  · show ([SimEngine.orderMoves (SimEngine.buildGrid 12 8 scenarioA.shelf_positions)
        12 8 scenarioA.packing_stations (0,0) [(3,3)]] : List ℕ).sum = 4
    rw [hmoves]
    rfl
  · rw [hdist]
    show ([SimEngine.orderSteps (SimEngine.buildGrid 12 8 scenarioA.shelf_positions)
        12 8 scenarioA.packing_stations (0,0) [(3,3)]] : List ℕ).sum ≠
      ([SimEngine.orderMoves (SimEngine.buildGrid 12 8 scenarioA.shelf_positions)
        12 8 scenarioA.packing_stations (0,0) [(3,3)]] : List ℕ).sum
    have h₆ : ([SimEngine.orderSteps (SimEngine.buildGrid 12 8 scenarioA.shelf_positions)
        12 8 scenarioA.packing_stations (0,0) [(3,3)]] : List ℕ).sum = 6 := by
      rw [hsteps]; rfl
    have h₄ : ([SimEngine.orderMoves (SimEngine.buildGrid 12 8 scenarioA.shelf_positions)
        12 8 scenarioA.packing_stations (0,0) [(3,3)]] : List ℕ).sum = 4 := by
      rw [hmoves]; rfl
    rw [h₆, h₄]
    omega

/-- C3 amended: `total_distance` is the sum, over all completed orders, of
the number of in-bounds cells of every leg's path — each leg contributes its
whole path including the cell the leg starts on, i.e. one more than its
cell-to-cell moves — and every order completes. -/
theorem claim_C3_cells_entered (cfg : SimEngine.SimConfig)
    (hW : 0 < cfg.num_workers) (hst : cfg.packing_stations ≠ []) :
    ∃ r, SimEngine.run_simulation cfg = .ok r ∧
      r.orders_completed = cfg.orders.length ∧
      r.total_distance = (cfg.orders.map
        (SimEngine.orderSteps (SimEngine.buildGrid cfg.grid_width cfg.grid_height
          cfg.shelf_positions) cfg.grid_width cfg.grid_height
          cfg.packing_stations (0, 0))).sum :=
  SimEngine.run_simulation_spec cfg hW hst

/-- Witness for the amended C3 on a small concrete run. -/
theorem claim_C3_witness :
    ∃ r, SimEngine.run_simulation ⟨2, 2, [], [(1,1)], 1, [[(0,1)]]⟩ = .ok r ∧
      r.orders_completed = ([[(0,1)]] : List (List Pos)).length ∧
      r.total_distance = (([[(0,1)]] : List (List Pos)).map
        (SimEngine.orderSteps (SimEngine.buildGrid 2 2 []) 2 2 [(1,1)] (0, 0))).sum :=
  claim_C3_cells_entered ⟨2, 2, [], [(1,1)], 1, [[(0,1)]]⟩ (by norm_num) (by simp)

namespace AdvOpt

/-- A shelf of the layout domain: position plus category label. -/
structure Shelf where
  position : Pos
  category : String
deriving DecidableEq, Repr

/-- A robot: identifier plus position. -/
structure Robot where
  id : String
  position : Pos
deriving DecidableEq, Repr

/-- The layout fields of `AdvancedLayoutOptimizer` that validation reads. -/
structure OptState where
  rows : ℤ
  columns : ℤ
  entry_points : List Pos
  shelves : List Shelf
  packing_stations : List Pos
  robots : List Robot
deriving DecidableEq, Repr

/-- The five shelf categories of the `Category` enum. -/
def categories : List String := ["a", "b", "c", "d", "e"]

/-- Bounds test `0 <= x < columns and 0 <= y < rows`. -/
def is_valid_position (st : OptState) (p : Pos) : Prop :=
  0 ≤ p.1 ∧ p.1 < st.columns ∧ 0 ≤ p.2 ∧ p.2 < st.rows

instance (st : OptState) (p : Pos) : Decidable (is_valid_position st p) := by
  unfold is_valid_position; exact inferInstance

/-- Aisle rule: every third row or column (`y % 3 == 2 or x % 3 == 2`). -/
def is_aisle_position (p : Pos) : Bool :=
  if p.2 % 3 = 2 then true
  else if p.1 % 3 = 2 then true
  else false

/-- A position is occupied by a shelf, a packing station, or a robot. -/
def is_position_occupied (st : OptState) (p : Pos) : Bool :=
  st.shelves.any (fun s => s.position = p) ||
  st.packing_stations.any (fun q => q = p) ||
  st.robots.any (fun r => r.position = p)

/-- The four directions of `get_neighbors`, in source order
`[(0,1),(1,0),(0,-1),(-1,0)]`. -/
def optDirs : List Pos := [(0,1),(1,0),(0,-1),(-1,0)]

/-- `get_neighbors`: the in-bounds 4-neighbors. -/
def get_neighbors (st : OptState) (p : Pos) : List Pos :=
  (optDirs.map (fun d => ((p.1 + d.1, p.2 + d.2) : Pos))).filter
    (fun n => decide (is_valid_position st n))

/-- The `is_reachable` search state: the `(f_score, position)` heap plus the
`came_from`, `g_score` and `f_score` dicts (association lists, newest entry
first, as a Python dict overwritten in place reads through `lookup`). -/
structure RState where
  q : List (ℤ × Pos)
  came : List (Pos × Pos)
  g : List (Pos × ℤ)
  f : List (Pos × ℤ)

/-- Heap order on `(f_score, position)` pairs: the Python tuple order. -/
def pairLe : (ℤ × Pos) → (ℤ × Pos) → Bool :=
  leOfCmp (cmpLex cmpInt cmpPos)

/-- One neighbor relaxation of the `is_reachable` loop: skip closed or
occupied neighbors; on a `g_score` improvement record `came_from`, `g_score`
and `f_score` and push the neighbor unless it is already in the open list. -/
def relaxNeighbor (st : OptState) (goal cur : Pos) (gc : ℤ) (closed : List Pos)
    (r : RState) (n : Pos) : RState :=
  if n ∈ closed then r
  else if is_position_occupied st n then r
  else
    let tg := gc + 1
    let improve :=
      match r.g.lookup n with
      | some gn => decide (tg < gn)
      | none => true
    if improve then
      let fn := tg + heuristic n goal
      { q := if r.q.any (fun e => e.2 = n) then r.q else r.q ++ [(fn, n)],
        came := (n, cur) :: r.came,
        g := (n, tg) :: r.g,
        f := (n, fn) :: r.f }
    else r

/-- The `while open_set` loop of `is_reachable`, with fuel: pop the minimal
`(f, position)` pair, succeed on the goal, otherwise close the cell and relax
its neighbors. -/
def reachLoop (st : OptState) (goal : Pos) :
    ℕ → RState → List Pos → Option Bool
  | 0, _, _ => none
  | fuel + 1, r, closed =>
    match popMinBy pairLe r.q with
    | none => some false
    | some ((_, cur), rest) =>
      if cur = goal then some true
      else
        let closed' := cur :: closed
        let gc := (r.g.lookup cur).getD 0
        reachLoop st goal fuel
          ((get_neighbors st cur).foldl (relaxNeighbor st goal cur gc closed')
            { r with q := rest }) closed'

/-- Fuel that always suffices (each cell is pushed at most once). -/
def fuelR (st : OptState) : ℕ := 2 * (st.columns.toNat * st.rows.toNat) + 4

/-- The `_reachability_cache`, keyed by `(start, goal)`. -/
def RCache : Type := Pos × Pos → Option Bool

/-- The empty reachability cache. -/
def RCache.empty : RCache := fun _ => none

/-- `is_reachable(start, goal)`: a cache hit returns the stored verdict;
otherwise the A* search runs and its boolean outcome is cached. -/
def is_reachable (st : OptState) (cache : RCache) (start goal : Pos) :
    Bool × RCache :=
  match cache (start, goal) with
  | some b => (b, cache)
  | none =>
    let r0 : RState := { q := [(heuristic start goal, start)], came := [],
                         g := [(start, 0)], f := [(start, heuristic start goal)] }
    let b := (reachLoop st goal (fuelR st) r0 []).getD false
    (b, fun k => if k = (start, goal) then some b else cache k)

/-- The `for entry in ...: if is_reachable(entry, goal): break` pattern, with
the cache threaded through every call. -/
def reachAnyFrom (st : OptState) : List Pos → Pos → RCache → Bool × RCache
  | [], _, cache => (false, cache)
  | s :: rest, goal, cache =>
    let rb := is_reachable st cache s goal
    if rb.1 then (true, rb.2)
    else reachAnyFrom st rest goal rb.2

/-- The shelf loop of `validate_layout`: positions of shelves no entry point
reaches, in shelf order. -/
def unreachableShelvesFold (st : OptState) : List Shelf → RCache → List Pos × RCache
  | [], cache => ([], cache)
  | s :: rest, cache =>
    let rb := reachAnyFrom st st.entry_points s.position cache
    let rr := unreachableShelvesFold st rest rb.2
    (if rb.1 then rr.1 else s.position :: rr.1, rr.2)

/-- The station loop of `validate_layout`: stations no shelf reaches. -/
def unreachableStationsFold (st : OptState) : List Pos → RCache → List Pos × RCache
  | [], cache => ([], cache)
  | stn :: rest, cache =>
    let rb := reachAnyFrom st (st.shelves.map (fun s => s.position)) stn cache
    let rr := unreachableStationsFold st rest rb.2
    (if rb.1 then rr.1 else stn :: rr.1, rr.2)

/-- Dict key order: first occurrences, as Python dict insertion order. -/
def firstOccsAux (seen : List String) : List String → List String
  | [] => []
  | c :: cs =>
    if c ∈ seen then firstOccsAux seen cs
    else c :: firstOccsAux (c :: seen) cs

def firstOccs (l : List String) : List String := firstOccsAux [] l

/-- The validation result dict of `validate_layout`. -/
structure VResult where
  valid : Bool
  quality_score : ℚ
  issues : List String
  warnings : List String
  utilization_rate : ℚ
  unreachable_shelves : List Pos
  unreachable_stations : List Pos
  aisle_violations : List Pos
  category_distribution : List (String × ℕ)
deriving DecidableEq, Repr

/-- `validate_layout`: reachability of shelves from entry points and of
stations from shelves, aisle warnings, category coverage, utilization and the
quality score.  (Python divides two floats for `utilization_rate`; with a
0×0 grid it would raise `ZeroDivisionError` where `ℚ` yields 0 — no claim
touches empty grids.) -/
def validate_layout (st : OptState) (cache : RCache) : VResult × RCache :=
  let us := unreachableShelvesFold st st.shelves cache
  let ust := unreachableStationsFold st st.packing_stations us.2
  let issues : List String :=
    (if us.1 ≠ [] then
      ["Found " ++ toString us.1.length ++ " unreachable shelves"] else []) ++
    (if ust.1 ≠ [] then
      ["Found " ++ toString ust.1.length ++ " unreachable packing stations"] else [])
  let aisle_violations :=
    (st.shelves.filter (fun s => is_aisle_position s.position)).map
      (fun s => s.position)
  let warnings : List String :=
    (if aisle_violations ≠ [] then
      ["Found " ++ toString aisle_violations.length ++
        " shelves in aisle positions (ignored for fallback)"] else []) ++
    (if (firstOccs (st.shelves.map (fun s => s.category))).length <
        categories.length then
      ["Not all categories are represented"] else [])
  let utilization_rate : ℚ :=
    ((st.shelves.length + st.packing_stations.length + st.robots.length : ℕ) : ℚ) /
      ((st.rows * st.columns : ℤ) : ℚ)
  let quality_score : ℚ :=
    if issues = [] then
      80 + min 20 (utilization_rate * 100) - 5 * (warnings.length : ℚ)
    else 0
  ({ valid := issues.isEmpty,
     quality_score := quality_score,
     issues := issues,
     warnings := warnings,
     utilization_rate := utilization_rate,
     unreachable_shelves := us.1,
     unreachable_stations := ust.1,
     aisle_violations := aisle_violations,
     category_distribution :=
       (firstOccs (st.shelves.map (fun s => s.category))).map
         (fun c => (c, (st.shelves.filter (fun s => s.category = c)).length)) },
   ust.2)

end AdvOpt

namespace LayoutValidator

/-- The `LayoutValidator` object: grid dimensions. -/
structure LV where
  grid_width : ℤ
  grid_height : ℤ

/-- `build_grid`: in-bounds shelves block. -/
def build_grid (v : LV) (shelf_positions : List Pos) : Pos → ℕ :=
  fun p => if inB v.grid_width v.grid_height p ∧ p ∈ shelf_positions then 1 else 0

/-- `LayoutValidator.a_star`: the identical search to `sim_engine.a_star`
but returning `none` (Python `None`) when no path exists. -/
def a_star (v : LV) (start goal : Pos) (grid : Pos → ℕ) : Option (List Pos) :=
  SimEngine.searchA start goal grid v.grid_width v.grid_height

/-- The result dict of `validate_reachability`. -/
structure RRes where
  valid : Bool
  unreachable_shelves : List Pos
  unreachable_stations : List Pos
  issues : List String
deriving DecidableEq, Repr

/-- `validate_reachability`: a blocked entry point fails immediately with all
shelves and stations reported unreachable; otherwise shelves unreachable from
the entry and stations reachable neither from the entry nor from a reachable
shelf (or simply blocked) are collected. -/
def validate_reachability (v : LV) (shelf_positions packing_stations : List Pos)
    (entry_point : Pos) : RRes :=
  let grid := build_grid v shelf_positions
  if grid entry_point = 1 then
    { valid := false,
      unreachable_shelves := shelf_positions,
      unreachable_stations := packing_stations,
      issues := ["Entry point " ++ toString entry_point ++ " is blocked by a shelf"] }
  else
    let unreachable_shelves :=
      shelf_positions.filter (fun s => (a_star v entry_point s grid).isNone)
    let stationReachable : Pos → Bool := fun station =>
      (if grid station = 1 then false
       else (a_star v entry_point station grid).isSome) ||
      shelf_positions.any (fun shelf =>
        decide (shelf ∉ unreachable_shelves) && (a_star v shelf station grid).isSome)
    let unreachable_stations :=
      packing_stations.filter (fun s => ! stationReachable s) ++
      packing_stations.filter (fun s => grid s = 1)
    { valid := unreachable_shelves.isEmpty && unreachable_stations.isEmpty,
      unreachable_shelves := unreachable_shelves,
      unreachable_stations := unreachable_stations,
      issues :=
        unreachable_shelves.map (fun s =>
          "Shelf at " ++ toString s ++ " is unreachable from entry point") ++
        (packing_stations.filter (fun s => ! stationReachable s)).map (fun s =>
          "Packing station at " ++ toString s ++ " is unreachable from any shelf") ++
        (packing_stations.filter (fun s => grid s = 1)).map (fun s =>
          "Packing station " ++ toString s ++ " is blocked by a shelf") }

end LayoutValidator

example : (AdvOpt.is_reachable ⟨2, 2, [], [], [], []⟩ AdvOpt.RCache.empty (0,0) (1,1)).1 =
    true := by decide

example : (AdvOpt.is_reachable ⟨2, 2, [], [⟨(1,1), "a"⟩], [], []⟩ AdvOpt.RCache.empty
    (0,0) (1,1)).1 = false := by decide

example : (AdvOpt.is_reachable ⟨2, 2, [], [⟨(1,1), "a"⟩], [], []⟩ AdvOpt.RCache.empty
    (1,1) (0,0)).1 = true := by decide

example : (AdvOpt.validate_layout ⟨2, 2, [(0,0)], [⟨(1,1), "a"⟩], [], []⟩
    AdvOpt.RCache.empty).1.valid = false := by decide

namespace LayoutValidator

theorem build_grid_eq_one {v : LV} {shelf_positions : List Pos} {p : Pos}
    (h₁ : build_grid v shelf_positions p = 1) :
    inB v.grid_width v.grid_height p ∧ p ∈ shelf_positions := by
  unfold build_grid at h₁
  by_cases hc : inB v.grid_width v.grid_height p ∧ p ∈ shelf_positions
  · exact hc
  · rw [if_neg hc] at h₁
    cases h₁

end LayoutValidator

/-- C4: in both validators the verdict is `valid = true` exactly when the
collected unreachable-shelf and unreachable-station lists are empty, and in
`AdvancedLayoutOptimizer.validate_layout` a valid layout scores
`80 + min(20, utilization_rate * 100) - 5 * warnings` (a hard failure scores
0 instead). -/
theorem claim_C4_validation_verdict (st : AdvOpt.OptState) (cache : AdvOpt.RCache)
    (v : LayoutValidator.LV) (shelf_positions packing_stations : List Pos)
    (entry_point : Pos) :
    ((AdvOpt.validate_layout st cache).1.valid = true ↔
      (AdvOpt.validate_layout st cache).1.unreachable_shelves = [] ∧
      (AdvOpt.validate_layout st cache).1.unreachable_stations = []) ∧
    ((AdvOpt.validate_layout st cache).1.valid = true →
      (AdvOpt.validate_layout st cache).1.quality_score =
        80 + min 20 ((AdvOpt.validate_layout st cache).1.utilization_rate * 100) -
          5 * (((AdvOpt.validate_layout st cache).1.warnings.length : ℚ))) ∧
    ((LayoutValidator.validate_reachability v shelf_positions packing_stations
        entry_point).valid = true ↔
      (LayoutValidator.validate_reachability v shelf_positions packing_stations
        entry_point).unreachable_shelves = [] ∧
      (LayoutValidator.validate_reachability v shelf_positions packing_stations
        entry_point).unreachable_stations = []) := by
  refine ⟨?_, ?_, ?_⟩
  · unfold AdvOpt.validate_layout
    by_cases h₁ : (AdvOpt.unreachableShelvesFold st st.shelves cache).1 = [] <;>
      by_cases h₂ : (AdvOpt.unreachableStationsFold st st.packing_stations
        (AdvOpt.unreachableShelvesFold st st.shelves cache).2).1 = [] <;>
      simp [h₁, h₂]
  · intro hv
    unfold AdvOpt.validate_layout at hv ⊢
    by_cases h₁ : (AdvOpt.unreachableShelvesFold st st.shelves cache).1 = [] <;>
      by_cases h₂ : (AdvOpt.unreachableStationsFold st st.packing_stations
        (AdvOpt.unreachableShelvesFold st st.shelves cache).2).1 = [] <;>
      simp [h₁, h₂] at hv ⊢
  · unfold LayoutValidator.validate_reachability
    by_cases hb : LayoutValidator.build_grid v shelf_positions entry_point = 1
    · rw [if_pos hb]
      have hmem : entry_point ∈ shelf_positions :=
        (LayoutValidator.build_grid_eq_one hb).2
      dsimp only
      constructor
      · intro hx
        cases hx
      · rintro ⟨hs, _⟩
        rw [hs] at hmem
        cases hmem
    · rw [if_neg hb]
      dsimp only
      rw [Bool.and_eq_true, List.isEmpty_iff, List.isEmpty_iff]

/-- Witness for C4 on a concrete layout (one shelf, no stations). -/
theorem claim_C4_witness :
    ((AdvOpt.validate_layout ⟨2, 2, [(0,0)], [⟨(1,1), "a"⟩], [], []⟩
        AdvOpt.RCache.empty).1.valid = true ↔
      (AdvOpt.validate_layout ⟨2, 2, [(0,0)], [⟨(1,1), "a"⟩], [], []⟩
        AdvOpt.RCache.empty).1.unreachable_shelves = [] ∧
      (AdvOpt.validate_layout ⟨2, 2, [(0,0)], [⟨(1,1), "a"⟩], [], []⟩
        AdvOpt.RCache.empty).1.unreachable_stations = []) ∧
    ((AdvOpt.validate_layout ⟨2, 2, [(0,0)], [⟨(1,1), "a"⟩], [], []⟩
        AdvOpt.RCache.empty).1.valid = true →
      (AdvOpt.validate_layout ⟨2, 2, [(0,0)], [⟨(1,1), "a"⟩], [], []⟩
        AdvOpt.RCache.empty).1.quality_score =
        80 + min 20 ((AdvOpt.validate_layout ⟨2, 2, [(0,0)], [⟨(1,1), "a"⟩], [], []⟩
          AdvOpt.RCache.empty).1.utilization_rate * 100) -
          5 * (((AdvOpt.validate_layout ⟨2, 2, [(0,0)], [⟨(1,1), "a"⟩], [], []⟩
            AdvOpt.RCache.empty).1.warnings.length : ℚ))) ∧
    ((LayoutValidator.validate_reachability ⟨3, 3⟩ [(1,1)] [(2,2)] (0,0)).valid =
        true ↔
      (LayoutValidator.validate_reachability ⟨3, 3⟩ [(1,1)] [(2,2)]
        (0,0)).unreachable_shelves = [] ∧
      (LayoutValidator.validate_reachability ⟨3, 3⟩ [(1,1)] [(2,2)]
        (0,0)).unreachable_stations = []) :=
  claim_C4_validation_verdict ⟨2, 2, [(0,0)], [⟨(1,1), "a"⟩], [], []⟩
    AdvOpt.RCache.empty ⟨3, 3⟩ [(1,1)] [(2,2)] (0,0)

namespace AdvOpt

/-- Free-cell reachability on the optimizer grid: each step moves to an
adjacent, in-bounds, unoccupied cell (the start itself may be occupied, as in
`is_reachable`, which never occupancy-checks the popped start). -/
inductive FreeReach (st : OptState) (start : Pos) : Pos → Prop
  | refl : FreeReach st start start
  | tail {p q : Pos} : FreeReach st start p → heuristic p q = 1 →
      is_valid_position st q → is_position_occupied st q = false →
      FreeReach st start q

theorem FreeReach.trans_from {st : OptState} {a b c : Pos}
    (h₁ : FreeReach st a b) (h₂ : FreeReach st b c) : FreeReach st a c := by
  induction h₂ with
  | refl => exact h₁
  | tail _ hadj hval hocc ih => exact .tail ih hadj hval hocc

theorem FreeReach.target_free {st : OptState} {a b : Pos} (h : FreeReach st a b) :
    b = a ∨ (is_valid_position st b ∧ is_position_occupied st b = false) := by
  cases h with
  | refl => exact Or.inl rfl
  | tail _ _ hval hocc => exact Or.inr ⟨hval, hocc⟩

theorem FreeReach.symm_free {st : OptState} {a b : Pos}
    (hval : is_valid_position st a) (hocc : is_position_occupied st a = false)
    (h : FreeReach st a b) : FreeReach st b a := by
  induction h with
  | refl => exact .refl
  | @tail p q hp hadj hv ho ih =>
    have hpfree : is_valid_position st p ∧ is_position_occupied st p = false := by
      rcases hp.target_free with rfl | hf
      · exact ⟨hval, hocc⟩
      · exact hf
    have hqp : FreeReach st q p :=
      .tail .refl (by rw [heuristic_comm]; exact hadj) hpfree.1 hpfree.2
    exact hqp.trans_from ih

theorem optAdj_of_dir {c : Pos} {d : Pos} (hd : d ∈ optDirs) :
    heuristic c (c.1 + d.1, c.2 + d.2) = 1 := by
  fin_cases hd
  · show |c.1 - (c.1 + 0)| + |c.2 - (c.2 + 1)| = 1
    rw [show c.1 - (c.1 + 0) = 0 by ring, show c.2 - (c.2 + 1) = -1 by ring]
    simp
  · show |c.1 - (c.1 + 1)| + |c.2 - (c.2 + 0)| = 1
    rw [show c.1 - (c.1 + 1) = -1 by ring, show c.2 - (c.2 + 0) = 0 by ring]
    simp
  · show |c.1 - (c.1 + 0)| + |c.2 - (c.2 + -1)| = 1
    rw [show c.1 - (c.1 + 0) = 0 by ring, show c.2 - (c.2 + -1) = 1 by ring]
    simp
  · show |c.1 - (c.1 + -1)| + |c.2 - (c.2 + 0)| = 1
    rw [show c.1 - (c.1 + -1) = 1 by ring, show c.2 - (c.2 + 0) = 0 by ring]
    simp

theorem adj_iff_dir {p n : Pos} :
    heuristic p n = 1 ↔ ∃ d ∈ optDirs, n = (p.1 + d.1, p.2 + d.2) := by
  constructor
  · intro h₁
    unfold heuristic at h₁
    have h₂ : (n.1 - p.1 = 0 ∧ (n.2 - p.2 = 1 ∨ n.2 - p.2 = -1)) ∨
        ((n.1 - p.1 = 1 ∨ n.1 - p.1 = -1) ∧ n.2 - p.2 = 0) := by
      rcases abs_cases (p.1 - n.1) with ⟨e₁, _⟩ | ⟨e₁, _⟩ <;>
        rcases abs_cases (p.2 - n.2) with ⟨e₂, _⟩ | ⟨e₂, _⟩ <;> omega
    rcases h₂ with ⟨hx, hy | hy⟩ | ⟨hx | hx, hy⟩
    · refine ⟨(0,1), by simp [optDirs], Prod.ext ?_ ?_⟩ <;> dsimp <;> omega
    · refine ⟨(0,-1), by simp [optDirs], Prod.ext ?_ ?_⟩ <;> dsimp <;> omega
    · refine ⟨(1,0), by simp [optDirs], Prod.ext ?_ ?_⟩ <;> dsimp <;> omega
    · refine ⟨(-1,0), by simp [optDirs], Prod.ext ?_ ?_⟩ <;> dsimp <;> omega
  · rintro ⟨d, hd, rfl⟩
    exact optAdj_of_dir hd

theorem mem_get_neighbors {st : OptState} {p n : Pos} :
    n ∈ get_neighbors st p ↔ heuristic p n = 1 ∧ is_valid_position st n := by
  unfold get_neighbors
  rw [List.mem_filter, List.mem_map]
  constructor
  · rintro ⟨⟨d, hd, rfl⟩, hval⟩
    exact ⟨optAdj_of_dir hd, of_decide_eq_true hval⟩
  · rintro ⟨hadj, hval⟩
    rcases adj_iff_dir.mp hadj with ⟨d, hd, rfl⟩
    exact ⟨⟨d, hd, rfl⟩, decide_eq_true hval⟩

theorem lookup_some_mem_keys {β : Type} {l : List (Pos × β)} {k : Pos} {v : β}
    (h : l.lookup k = some v) : k ∈ l.map Prod.fst := by
  induction l with
  | nil => cases h
  | cons x xs ih =>
    cases x with
    | mk k' v' =>
      simp only [List.lookup] at h
      split at h
      · rename_i heq
        have hk : k = k' := by simpa using heq
        rw [List.map_cons, hk]
        exact List.mem_cons_self k' _
      · exact List.mem_cons_of_mem _ (ih h)

theorem qAny_iff {r : List (ℤ × Pos)} {n : Pos} :
    r.any (fun e => e.2 = n) = true ↔ n ∈ r.map Prod.snd := by
  rw [List.any_eq_true]
  constructor
  · rintro ⟨e, he, hv⟩
    exact List.mem_map.mpr ⟨e, he, by simpa using hv⟩
  · rintro hn
    rcases List.mem_map.mp hn with ⟨e, he, hv⟩
    exact ⟨e, he, by simpa using hv⟩

end AdvOpt

namespace AdvOpt

/-- Cells the reachability frontier may hold: the in-bounds cells plus the
start (pushed without an occupancy check). -/
def validCellsR (st : OptState) (start : Pos) : Finset Pos :=
  ((Finset.Ico (0:ℤ) st.columns) ×ˢ (Finset.Ico (0:ℤ) st.rows)) ∪ {start}

theorem mem_validCellsR_of_valid {st : OptState} {start p : Pos}
    (hp : is_valid_position st p) : p ∈ validCellsR st start := by
  rcases hp with ⟨h₁, h₂, h₃, h₄⟩
  exact Finset.mem_union_left _ (Finset.mem_product.mpr
    ⟨Finset.mem_Ico.mpr ⟨h₁, h₂⟩, Finset.mem_Ico.mpr ⟨h₃, h₄⟩⟩)

theorem start_mem_validCellsR (st : OptState) (start : Pos) :
    start ∈ validCellsR st start :=
  Finset.mem_union_right _ (Finset.mem_singleton_self start)

theorem card_validCellsR_le (st : OptState) (start : Pos) :
    (validCellsR st start).card ≤ st.columns.toNat * st.rows.toNat + 1 := by
  refine le_trans (Finset.card_union_le _ _) ?_
  have h₁ : ((Finset.Ico (0:ℤ) st.columns) ×ˢ (Finset.Ico (0:ℤ) st.rows)).card =
      st.columns.toNat * st.rows.toNat := by
    rw [Finset.card_product, Int.card_Ico, Int.card_Ico]
    simp
  rw [h₁, Finset.card_singleton]

/-- One relaxation step preserves the frontier invariants, only grows the
open positions and `g_score` keys, ensures a free processed neighbor is
closed, open, or `g_score`-known, and never increases the potential. -/
theorem relaxNeighbor_spec (st : OptState) (start goal cur : Pos) (gc : ℤ)
    (closed' : List Pos) (r : RState) (n : Pos)
    (hadj : heuristic cur n = 1) (hval : is_valid_position st n)
    (hcur : FreeReach st start cur)
    (ndq : (r.q.map Prod.snd).Nodup)
    (dj : ∀ p ∈ r.q.map Prod.snd, p ∉ closed')
    (qs : ∀ p ∈ r.q.map Prod.snd,
      p = start ∨ (is_valid_position st p ∧ is_position_occupied st p = false))
    (rq : ∀ p ∈ r.q.map Prod.snd, FreeReach st start p)
    (k : ∀ p ∈ r.g.map Prod.fst, p ∈ closed' ∨ p ∈ r.q.map Prod.snd) :
    let r' := relaxNeighbor st goal cur gc closed' r n
    ((r'.q.map Prod.snd).Nodup ∧
     (∀ p ∈ r'.q.map Prod.snd, p ∉ closed') ∧
     (∀ p ∈ r'.q.map Prod.snd,
       p = start ∨ (is_valid_position st p ∧ is_position_occupied st p = false)) ∧
     (∀ p ∈ r'.q.map Prod.snd, FreeReach st start p) ∧
     (∀ p ∈ r'.g.map Prod.fst, p ∈ closed' ∨ p ∈ r'.q.map Prod.snd)) ∧
    (∀ p ∈ r.q.map Prod.snd, p ∈ r'.q.map Prod.snd) ∧
    (∀ p ∈ r.g.map Prod.fst, p ∈ r'.g.map Prod.fst) ∧
    (is_position_occupied st n = false →
      n ∈ closed' ∨ n ∈ r'.q.map Prod.snd ∨ n ∈ r'.g.map Prod.fst) ∧
    r'.q.length + 2 * ((validCellsR st start \ (closed'.toFinset ∪
        (r'.q.map Prod.snd).toFinset)).card) ≤
      r.q.length + 2 * ((validCellsR st start \ (closed'.toFinset ∪
        (r.q.map Prod.snd).toFinset)).card) := by
  intro r'
  show _ ∧ _ ∧ _ ∧ _ ∧ _
  by_cases hc : n ∈ closed'
  · have hr' : r' = r := by simp only [r', relaxNeighbor, if_pos hc]
    rw [hr']
    exact ⟨⟨ndq, dj, qs, rq, k⟩, fun p hp => hp, fun p hp => hp,
      fun _ => Or.inl hc, le_refl _⟩
  · by_cases ho : is_position_occupied st n = true
    · have hr' : r' = r := by simp only [r', relaxNeighbor, if_neg hc, ho, if_true]
      rw [hr']
      refine ⟨⟨ndq, dj, qs, rq, k⟩, fun p hp => hp, fun p hp => hp, ?_, le_refl _⟩
      intro hfree
      rw [ho] at hfree
      cases hfree
    · have ho' : is_position_occupied st n = false := by
        cases hb : is_position_occupied st n
        · rfl
        · exact absurd hb ho
      by_cases himp : (match r.g.lookup n with
          | some gn => decide (gc + 1 < gn)
          | none => true) = true
      · -- improvement branch: g/f/came extended, conditional push
        by_cases hin : r.q.any (fun e => e.2 = n) = true
        · have hr' : r' = ⟨r.q, (n, cur) :: r.came,
              (n, gc + 1) :: r.g, (n, gc + 1 + heuristic n goal) :: r.f⟩ := by
            simp only [r', relaxNeighbor, if_neg hc, ho', if_pos himp, if_pos hin]
            simp
          rw [hr']
          have hnq : n ∈ r.q.map Prod.snd := qAny_iff.mp hin
          refine ⟨⟨ndq, dj, qs, rq, ?_⟩, fun p hp => hp, ?_, ?_, le_refl _⟩
          · intro p hp
            rcases List.mem_cons.mp hp with rfl | hp
            · exact Or.inr hnq
            · exact k p hp
          · intro p hp
            exact List.mem_cons_of_mem _ hp
          · intro _
            exact Or.inr (Or.inl hnq)
        · have hr' : r' = ⟨r.q ++ [(gc + 1 + heuristic n goal, n)],
              (n, cur) :: r.came,
              (n, gc + 1) :: r.g, (n, gc + 1 + heuristic n goal) :: r.f⟩ := by
            simp only [r', relaxNeighbor, if_neg hc, ho', if_pos himp, if_neg hin]
            simp
          rw [hr']
          have hnq : n ∉ r.q.map Prod.snd := fun hx => hin (qAny_iff.mpr hx)
          have hqmap : ((r.q ++ [(gc + 1 + heuristic n goal, n)]).map Prod.snd) =
              r.q.map Prod.snd ++ [n] := by
            rw [List.map_append]
            rfl
          have hreach : FreeReach st start n := .tail hcur hadj hval ho'
          refine ⟨⟨?_, ?_, ?_, ?_, ?_⟩, ?_, ?_, ?_, ?_⟩
          · rw [hqmap, List.nodup_append]
            exact ⟨ndq, List.nodup_singleton n, by simpa using hnq⟩
          · rw [hqmap]
            intro p hp
            rcases List.mem_append.mp hp with hp | hp
            · exact dj p hp
            · rcases List.mem_singleton.mp hp with rfl
              exact hc
          · rw [hqmap]
            intro p hp
            rcases List.mem_append.mp hp with hp | hp
            · exact qs p hp
            · rcases List.mem_singleton.mp hp with rfl
              exact Or.inr ⟨hval, ho'⟩
          · rw [hqmap]
            intro p hp
            rcases List.mem_append.mp hp with hp | hp
            · exact rq p hp
            · rcases List.mem_singleton.mp hp with rfl
              exact hreach
          · rw [hqmap]
            intro p hp
            rcases List.mem_cons.mp hp with rfl | hp
            · exact Or.inr (List.mem_append_right _ (List.mem_singleton_self p))
            · rcases k p hp with hk | hk
              · exact Or.inl hk
              · exact Or.inr (List.mem_append_left _ hk)
          · rw [hqmap]
            intro p hp
            exact List.mem_append_left _ hp
          · intro p hp
            exact List.mem_cons_of_mem _ hp
          · intro _
            rw [hqmap]
            exact Or.inr (Or.inl (List.mem_append_right _ (List.mem_singleton_self n)))
          · -- potential: one more open entry, one fewer unseen cell
            rw [hqmap]
            have hmemS : n ∈ validCellsR st start \ (closed'.toFinset ∪
                (r.q.map Prod.snd).toFinset) := by
              rw [Finset.mem_sdiff, Finset.mem_union]
              refine ⟨mem_validCellsR_of_valid hval, ?_⟩
              rintro (hx | hx)
              · exact hc (List.mem_toFinset.mp hx)
              · exact hnq (List.mem_toFinset.mp hx)
            have hset : closed'.toFinset ∪ (r.q.map Prod.snd ++ [n]).toFinset =
                insert n (closed'.toFinset ∪ (r.q.map Prod.snd).toFinset) := by
              ext x
              simp only [Finset.mem_union, List.mem_toFinset, List.mem_append,
                List.mem_singleton, Finset.mem_insert]
              tauto
            rw [List.length_append, hset, Finset.sdiff_insert,
              Finset.card_erase_of_mem hmemS]
            have hpos : 1 ≤ ((validCellsR st start \ (closed'.toFinset ∪
                (r.q.map Prod.snd).toFinset)).card) := Finset.card_pos.mpr ⟨n, hmemS⟩
            simp only [List.length_singleton]
            omega
      · have hr' : r' = r := by
          simp only [r', relaxNeighbor, if_neg hc, ho', if_neg himp]
          simp
        rw [hr']
        refine ⟨⟨ndq, dj, qs, rq, k⟩, fun p hp => hp, fun p hp => hp, ?_, le_refl _⟩
        intro _
        rcases hg : r.g.lookup n with _ | gn
        · rw [hg] at himp
          simp at himp
        · exact Or.inr (Or.inr (lookup_some_mem_keys hg))

end AdvOpt

namespace AdvOpt

/-- Folding the relaxation over a neighbor list preserves the invariants,
only grows the open list and the `g_score` keys, and leaves every processed
free neighbor closed or open. -/
theorem relaxFold_spec (st : OptState) (start goal cur : Pos) (gc : ℤ)
    (closed' : List Pos) (hcur : FreeReach st start cur) :
    ∀ (ns : List Pos) (r : RState),
      (∀ n ∈ ns, heuristic cur n = 1 ∧ is_valid_position st n) →
      (r.q.map Prod.snd).Nodup →
      (∀ p ∈ r.q.map Prod.snd, p ∉ closed') →
      (∀ p ∈ r.q.map Prod.snd,
        p = start ∨ (is_valid_position st p ∧ is_position_occupied st p = false)) →
      (∀ p ∈ r.q.map Prod.snd, FreeReach st start p) →
      (∀ p ∈ r.g.map Prod.fst, p ∈ closed' ∨ p ∈ r.q.map Prod.snd) →
      start ∈ r.g.map Prod.fst →
      let rr := ns.foldl (relaxNeighbor st goal cur gc closed') r
      ((rr.q.map Prod.snd).Nodup ∧
       (∀ p ∈ rr.q.map Prod.snd, p ∉ closed') ∧
       (∀ p ∈ rr.q.map Prod.snd,
         p = start ∨ (is_valid_position st p ∧ is_position_occupied st p = false)) ∧
       (∀ p ∈ rr.q.map Prod.snd, FreeReach st start p) ∧
       (∀ p ∈ rr.g.map Prod.fst, p ∈ closed' ∨ p ∈ rr.q.map Prod.snd)) ∧
      start ∈ rr.g.map Prod.fst ∧
      (∀ p ∈ r.q.map Prod.snd, p ∈ rr.q.map Prod.snd) ∧
      (∀ p ∈ r.g.map Prod.fst, p ∈ rr.g.map Prod.fst) ∧
      (∀ n ∈ ns, is_position_occupied st n = false →
        n ∈ closed' ∨ n ∈ rr.q.map Prod.snd) ∧
      rr.q.length + 2 * ((validCellsR st start \ (closed'.toFinset ∪
          (rr.q.map Prod.snd).toFinset)).card) ≤
        r.q.length + 2 * ((validCellsR st start \ (closed'.toFinset ∪
          (r.q.map Prod.snd).toFinset)).card) := by
  intro ns
  induction ns with
  | nil =>
    intro r _ ndq dj qs rq k sk rr
    exact ⟨⟨ndq, dj, qs, rq, k⟩, sk, fun p hp => hp, fun p hp => hp, fun n hn => absurd hn
      (List.not_mem_nil n), le_refl _⟩
  | cons n ns' ih =>
    intro r hns ndq dj qs rq k sk rr
    obtain ⟨⟨ndq₁, dj₁, qs₁, rq₁, k₁⟩, mq₁, mg₁, proc₁, phi₁⟩ :=
      relaxNeighbor_spec st start goal cur gc closed' r n (hns n (List.mem_cons_self n ns')).1
        (hns n (List.mem_cons_self n ns')).2 hcur ndq dj qs rq k
    obtain ⟨⟨ndq₂, dj₂, qs₂, rq₂, k₂⟩, sk₂, mq₂, mg₂, proc₂, phi₂⟩ :=
      ih (relaxNeighbor st goal cur gc closed' r n)
        (fun m hm => hns m (List.mem_cons_of_mem n hm)) ndq₁ dj₁ qs₁ rq₁ k₁ (mg₁ start sk)
    have hfold : rr = ns'.foldl (relaxNeighbor st goal cur gc closed')
        (relaxNeighbor st goal cur gc closed' r n) := rfl
    rw [hfold]
    refine ⟨⟨ndq₂, dj₂, qs₂, rq₂, k₂⟩, sk₂, ?_, ?_, ?_, ?_⟩
    · intro p hp
      exact mq₂ p (mq₁ p hp)
    · intro p hp
      exact mg₂ p (mg₁ p hp)
    · intro m hm hfree
      rcases List.mem_cons.mp hm with rfl | hm
      · rcases proc₁ hfree with hcl | hq | hg
        · exact Or.inl hcl
        · exact Or.inr (mq₂ m hq)
        · rcases k₂ m (mg₂ m hg) with hcl | hq
          · exact Or.inl hcl
          · exact Or.inr hq
      · exact proc₂ m hm hfree
    · exact le_trans phi₂ phi₁

end AdvOpt

namespace AdvOpt

/-- The `while open_set` loop of `is_reachable`, characterized: under the
frontier invariants and with enough fuel it terminates and returns `true`
exactly when the goal is free-reachable from the start. -/
theorem reachLoop_spec (st : OptState) (start goal : Pos) :
    ∀ (fuel : ℕ) (r : RState) (closed : List Pos),
      (r.q.map Prod.snd).Nodup →
      (∀ p ∈ r.q.map Prod.snd, p ∉ closed) →
      (∀ p ∈ r.q.map Prod.snd,
        p = start ∨ (is_valid_position st p ∧ is_position_occupied st p = false)) →
      (∀ p ∈ r.q.map Prod.snd, FreeReach st start p) →
      (∀ p ∈ r.g.map Prod.fst, p ∈ closed ∨ p ∈ r.q.map Prod.snd) →
      start ∈ r.g.map Prod.fst →
      (∀ p ∈ closed, ∀ n : Pos, heuristic p n = 1 → is_valid_position st n →
        is_position_occupied st n = false →
        n ∈ closed ∨ n ∈ r.q.map Prod.snd) →
      goal ∉ closed →
      r.q.length + 2 * ((validCellsR st start \ (closed.toFinset ∪
        (r.q.map Prod.snd).toFinset)).card) + 1 ≤ fuel →
      ∃ b, reachLoop st goal fuel r closed = some b ∧
        (b = true ↔ FreeReach st start goal) := by
  intro fuel
  induction fuel with
  | zero => intro r closed _ _ _ _ _ _ _ _ hf; omega
  | succ fuel ih =>
    intro r closed ndq dj qs rq k sk cl gnc hf
    rcases hpop : popMinBy pairLe r.q with _ | ⟨⟨fv, cur⟩, rest⟩
    · have hnil : r.q = [] := (popMinBy_eq_none pairLe r.q).mp hpop
      refine ⟨false, ?_, ?_⟩
      · rw [reachLoop, hpop]
      · simp only [Bool.false_eq_true, false_iff]
        intro hfr
        have hstart : start ∈ closed := by
          rcases k start sk with h | h
          · exact h
          · rw [hnil] at h
            cases h
        have hall : ∀ p, FreeReach st start p → p ∈ closed := by
          intro p hp
          induction hp with
          | refl => exact hstart
          | tail hp hadj hval hocc ihp =>
            rcases cl _ ihp _ hadj hval hocc with h | h
            · exact h
            · rw [hnil] at h
              cases h
        exact gnc (hall goal hfr)
    · have hperm : r.q.Perm ((fv, cur) :: rest) := popMinBy_perm pairLe hpop
      have hpermp : (r.q.map Prod.snd).Perm (cur :: rest.map Prod.snd) := by
        have hmp := hperm.map Prod.snd
        simpa using hmp
      have hcurq : cur ∈ r.q.map Prod.snd :=
        hpermp.mem_iff.mpr (List.mem_cons_self _ _)
      by_cases hgoal : cur = goal
      · refine ⟨true, ?_, ?_⟩
        · rw [reachLoop, hpop]
          dsimp only
          rw [if_pos hgoal]
        · simp only [true_iff]
          exact hgoal ▸ rq cur hcurq
      · -- close `cur`, relax its neighbors, recurse
        have hnd2 : (cur :: rest.map Prod.snd).Nodup := hpermp.nodup_iff.mp ndq
        obtain ⟨hcnr, ndq₁⟩ := List.nodup_cons.mp hnd2
        have hcur : FreeReach st start cur := rq cur hcurq
        have dj₁ : ∀ p ∈ rest.map Prod.snd, p ∉ cur :: closed := by
          intro p hp hpc
          rcases List.mem_cons.mp hpc with rfl | hpc
          · exact hcnr hp
          · exact dj p (hpermp.mem_iff.mpr (List.mem_cons_of_mem _ hp)) hpc
        have qs₁ : ∀ p ∈ rest.map Prod.snd,
            p = start ∨ (is_valid_position st p ∧ is_position_occupied st p = false) :=
          fun p hp => qs p (hpermp.mem_iff.mpr (List.mem_cons_of_mem _ hp))
        have rq₁ : ∀ p ∈ rest.map Prod.snd, FreeReach st start p :=
          fun p hp => rq p (hpermp.mem_iff.mpr (List.mem_cons_of_mem _ hp))
        have k₁ : ∀ p ∈ r.g.map Prod.fst,
            p ∈ cur :: closed ∨ p ∈ rest.map Prod.snd := by
          intro p hp
          rcases k p hp with h | h
          · exact Or.inl (List.mem_cons_of_mem _ h)
          · rcases List.mem_cons.mp (hpermp.mem_iff.mp h) with rfl | h
            · exact Or.inl (List.mem_cons_self _ _)
            · exact Or.inr h
        obtain ⟨⟨ndq₂, dj₂, qs₂, rq₂, k₂⟩, sk₂, mq₂, mg₂, proc₂, phi₂⟩ :=
          relaxFold_spec st start goal cur ((r.g.lookup cur).getD 0) (cur :: closed)
            hcur (get_neighbors st cur) { r with q := rest }
            (fun n hn => mem_get_neighbors.mp hn) ndq₁ dj₁ qs₁ rq₁ k₁ sk
        have cl' : ∀ p ∈ cur :: closed, ∀ n : Pos, heuristic p n = 1 →
            is_valid_position st n → is_position_occupied st n = false →
            n ∈ cur :: closed ∨
              n ∈ (((get_neighbors st cur).foldl
                (relaxNeighbor st goal cur ((r.g.lookup cur).getD 0) (cur :: closed))
                { r with q := rest }).q.map Prod.snd) := by
          intro p hp n hadj hval hocc
          rcases List.mem_cons.mp hp with rfl | hp
          · rcases proc₂ n (mem_get_neighbors.mpr ⟨hadj, hval⟩) hocc with h | h
            · exact Or.inl h
            · exact Or.inr h
          · rcases cl p hp n hadj hval hocc with h | h
            · exact Or.inl (List.mem_cons_of_mem _ h)
            · rcases List.mem_cons.mp (hpermp.mem_iff.mp h) with rfl | h
              · exact Or.inl (List.mem_cons_self _ _)
              · exact Or.inr (mq₂ n h)
        have gnc' : goal ∉ cur :: closed := by
          intro hx
          rcases List.mem_cons.mp hx with rfl | hx
          · exact hgoal rfl
          · exact gnc hx
        have e₁ : ({ r with q := rest } : RState).q.length = rest.length := rfl
        have e₂ : ({ r with q := rest } : RState).q.map Prod.snd =
            rest.map Prod.snd := rfl
        rw [e₁, e₂] at phi₂
        have hlen : r.q.length = rest.length + 1 := by
          rw [hperm.length_eq]
          rfl
        have hsets : ((cur :: closed).toFinset ∪ (rest.map Prod.snd).toFinset) =
            (closed.toFinset ∪ (r.q.map Prod.snd).toFinset) := by
          have hqf : (r.q.map Prod.snd).toFinset =
              (cur :: rest.map Prod.snd).toFinset :=
            List.toFinset_eq_of_perm _ _ hpermp
          rw [hqf]
          ext x
          simp only [List.toFinset_cons, Finset.mem_union, Finset.mem_insert,
            List.mem_toFinset]
          tauto
        rw [hsets] at phi₂
        obtain ⟨b, heq, hiff⟩ := ih ((get_neighbors st cur).foldl
            (relaxNeighbor st goal cur ((r.g.lookup cur).getD 0) (cur :: closed))
            { r with q := rest }) (cur :: closed)
          ndq₂ dj₂ qs₂ rq₂ k₂ sk₂ cl' gnc' (by omega)
        refine ⟨b, ?_, hiff⟩
        rw [reachLoop, hpop]
        dsimp only
        rw [if_neg hgoal]
        exact heq

end AdvOpt

namespace AdvOpt

/-- A `_reachability_cache` is consistent when every stored verdict matches
free-cell reachability. -/
def RCacheOK (st : OptState) (cache : RCache) : Prop :=
  ∀ a b v, cache (a, b) = some v → (v = true ↔ FreeReach st a b)

theorem RCacheOK.empty (st : OptState) : RCacheOK st RCache.empty :=
  fun a b v hv => nomatch hv

/-- `is_reachable` on a consistent cache decides free-cell reachability and
keeps the cache consistent. -/
theorem is_reachable_spec (st : OptState) (cache : RCache) (start goal : Pos)
    (hok : RCacheOK st cache) :
    ((is_reachable st cache start goal).1 = true ↔ FreeReach st start goal) ∧
    RCacheOK st (is_reachable st cache start goal).2 := by
  rcases hcv : cache (start, goal) with _ | v
  · -- cache miss: the search runs
    have hstart := start_mem_validCellsR st start
    have hsub : ({start} : Finset Pos) ⊆ validCellsR st start := by
      intro x hx
      rw [Finset.mem_singleton] at hx
      subst hx
      exact hstart
    have hcV := card_validCellsR_le st start
    have hone : (1:ℕ) ≤ (validCellsR st start).card :=
      Finset.card_pos.mpr ⟨start, hstart⟩
    have hcd : (validCellsR st start \ ({start} : Finset Pos)).card =
        (validCellsR st start).card - 1 := by
      rw [Finset.card_sdiff hsub, Finset.card_singleton]
    have hfuel : ([((heuristic start goal : ℤ), start)]).length +
        2 * ((validCellsR st start \ ((([]:List Pos)).toFinset ∪
          (([((heuristic start goal : ℤ), start)]).map Prod.snd).toFinset)).card) +
        1 ≤ fuelR st := by
      have e : ((([]:List Pos)).toFinset ∪
          (([((heuristic start goal : ℤ), start)]).map Prod.snd).toFinset) =
          ({start} : Finset Pos) := by
        simp
      rw [e, hcd]
      simp only [List.length_singleton]
      unfold fuelR
      omega
    obtain ⟨b, heq, hiff⟩ :=
      reachLoop_spec st start goal (fuelR st)
        ⟨[((heuristic start goal : ℤ), start)], [], [(start, 0)],
          [(start, heuristic start goal)]⟩ []
        (by simp)
        (fun p _ => List.not_mem_nil p)
        (by
          intro p hp
          dsimp only at hp
          simp at hp
          exact Or.inl hp)
        (by
          intro p hp
          dsimp only at hp
          simp at hp
          subst hp
          exact FreeReach.refl)
        (by
          intro p hp
          dsimp only at hp
          simp at hp
          subst hp
          exact Or.inr (by simp))
        (by
          dsimp only
          simp)
        (fun p hp => absurd hp (List.not_mem_nil p))
        (List.not_mem_nil goal)
        (by
          dsimp only
          exact hfuel)
    have hre : is_reachable st cache start goal =
        ((reachLoop st goal (fuelR st)
            ⟨[((heuristic start goal : ℤ), start)], [], [(start, 0)],
              [(start, heuristic start goal)]⟩ []).getD false,
         fun kk => if kk = (start, goal) then
            some ((reachLoop st goal (fuelR st)
              ⟨[((heuristic start goal : ℤ), start)], [], [(start, 0)],
                [(start, heuristic start goal)]⟩ []).getD false)
          else cache kk) := by
      simp only [is_reachable, hcv]
    rw [hre, heq]
    refine ⟨hiff, ?_⟩
    intro a' b' v hv
    dsimp only at hv
    by_cases hk : ((a', b') : Pos × Pos) = (start, goal)
    · rw [if_pos hk] at hv
      have ha : a' = start := congrArg Prod.fst hk
      have hb2 : b' = goal := congrArg Prod.snd hk
      injection hv with hv'
      subst ha
      subst hb2
      subst hv'
      exact hiff
    · rw [if_neg hk] at hv
      exact hok a' b' v hv
  · -- cache hit: stored verdict returned, cache unchanged
    have hre : is_reachable st cache start goal = (v, cache) := by
      simp only [is_reachable, hcv]
    rw [hre]
    exact ⟨hok start goal v hcv, hok⟩

/-- Threading a consistent cache through the entry-point loop keeps it
consistent. -/
theorem reachAnyFrom_ok (st : OptState) :
    ∀ (entries : List Pos) (goal : Pos) (cache : RCache), RCacheOK st cache →
      RCacheOK st (reachAnyFrom st entries goal cache).2 := by
  intro entries
  induction entries with
  | nil => intro goal cache hok; exact hok
  | cons e rest ih =>
    intro goal cache hok
    have hspec := is_reachable_spec st cache e goal hok
    rw [reachAnyFrom]
    by_cases hb : (is_reachable st cache e goal).1 = true
    · rw [if_pos hb]
      exact hspec.2
    · rw [if_neg hb]
      exact ih goal _ hspec.2

/-- When the goal is occupied and distinct from every entry, no entry reaches
it. -/
theorem reachAnyFrom_false (st : OptState) :
    ∀ (entries : List Pos) (goal : Pos) (cache : RCache), RCacheOK st cache →
      is_position_occupied st goal = true →
      (∀ e ∈ entries, e ≠ goal) →
      (reachAnyFrom st entries goal cache).1 = false := by
  intro entries
  induction entries with
  | nil => intro goal cache _ _ _; rfl
  | cons e rest ih =>
    intro goal cache hok hocc hne
    have hspec := is_reachable_spec st cache e goal hok
    have hb : (is_reachable st cache e goal).1 = false := by
      cases hx : (is_reachable st cache e goal).1
      · rfl
      · exfalso
        rcases (hspec.1.mp hx).target_free with rfl | ⟨_, hfree⟩
        · exact hne goal (List.mem_cons_self _ _) rfl
        · rw [hocc] at hfree
          cases hfree
    rw [reachAnyFrom]
    rw [hb]
    simp only [Bool.false_eq_true, if_false]
    exact ih goal _ hspec.2 hocc (fun x hx => hne x (List.mem_cons_of_mem _ hx))

/-- The shelf loop keeps the cache consistent. -/
theorem unreachableShelvesFold_ok (st : OptState) :
    ∀ (shs : List Shelf) (cache : RCache), RCacheOK st cache →
      RCacheOK st (unreachableShelvesFold st shs cache).2 := by
  intro shs
  induction shs with
  | nil => intro cache hok; exact hok
  | cons sh rest ih =>
    intro cache hok
    exact ih _ (reachAnyFrom_ok st st.entry_points sh.position cache hok)

/-- A shelf whose position is occupied and differs from every entry point is
collected by the shelf loop. -/
theorem unreachableShelvesFold_mem (st : OptState) :
    ∀ (shs : List Shelf) (cache : RCache), RCacheOK st cache →
      ∀ s ∈ shs, is_position_occupied st s.position = true →
      (∀ e ∈ st.entry_points, e ≠ s.position) →
      s.position ∈ (unreachableShelvesFold st shs cache).1 := by
  intro shs
  induction shs with
  | nil => intro cache _ s hs; cases hs
  | cons sh rest ih =>
    intro cache hok s hs hocc hne
    rw [unreachableShelvesFold]
    rcases List.mem_cons.mp hs with rfl | hs
    · rw [reachAnyFrom_false st st.entry_points s.position cache hok hocc hne]
      exact List.mem_cons_self _ _
    · have hmem := ih (reachAnyFrom st st.entry_points sh.position cache).2
        (reachAnyFrom_ok st st.entry_points sh.position cache hok) s hs hocc hne
      by_cases hb : (reachAnyFrom st st.entry_points sh.position cache).1 = true
      · rw [hb]
        simpa using hmem
      · rw [Bool.not_eq_true] at hb
        rw [hb]
        simp only [Bool.false_eq_true, if_false]
        exact List.mem_cons_of_mem _ hmem

/-- A shelf position is occupied. -/
theorem shelf_position_occupied {st : OptState} {s : Shelf} (hs : s ∈ st.shelves) :
    is_position_occupied st s.position = true := by
  unfold is_position_occupied
  rw [Bool.or_eq_true, Bool.or_eq_true]
  exact Or.inl (Or.inl (List.any_eq_true.mpr ⟨s, hs, by simp⟩))

end AdvOpt

/-- C5: on a consistent reachability cache, `is_reachable` is symmetric
between any two nodes of the free-cell grid graph (in-bounds, unoccupied
cells): the graph is undirected, so `is_reachable(a, b)` and
`is_reachable(b, a)` return the same boolean. -/
theorem claim_C5_reachability_symmetry (st : AdvOpt.OptState)
    (cache : AdvOpt.RCache) (a b : Pos)
    (hok : AdvOpt.RCacheOK st cache)
    (ha : AdvOpt.is_valid_position st a ∧ AdvOpt.is_position_occupied st a = false)
    (hb : AdvOpt.is_valid_position st b ∧ AdvOpt.is_position_occupied st b = false) :
    (AdvOpt.is_reachable st cache a b).1 = (AdvOpt.is_reachable st cache b a).1 := by
  have h₁ := (AdvOpt.is_reachable_spec st cache a b hok).1
  have h₂ := (AdvOpt.is_reachable_spec st cache b a hok).1
  have h₃ : AdvOpt.FreeReach st a b ↔ AdvOpt.FreeReach st b a :=
    ⟨fun h => h.symm_free ha.1 ha.2, fun h => h.symm_free hb.1 hb.2⟩
  cases hx : (AdvOpt.is_reachable st cache a b).1 <;>
    cases hy : (AdvOpt.is_reachable st cache b a).1
  · rfl
  · have hc := h₁.mpr (h₃.mpr (h₂.mp hy))
    rw [hx] at hc
    cases hc
  · have hc := h₂.mpr (h₃.mp (h₁.mp hx))
    rw [hy] at hc
    cases hc
  · rfl

/-- Witness for C5: symmetry between the two free corners of an empty 2x2
grid, on the empty cache. -/
theorem claim_C5_witness :
    (AdvOpt.is_reachable ⟨2, 2, [], [], [], []⟩ AdvOpt.RCache.empty
        (0,0) (1,1)).1 =
    (AdvOpt.is_reachable ⟨2, 2, [], [], [], []⟩ AdvOpt.RCache.empty
        (1,1) (0,0)).1 :=
  claim_C5_reachability_symmetry ⟨2, 2, [], [], [], []⟩ AdvOpt.RCache.empty
    (0,0) (1,1) (AdvOpt.RCacheOK.empty _)
    ⟨by decide, by decide⟩ ⟨by decide, by decide⟩

/-- C6 (implicit): an occupied goal distinct from the start is never
reachable — occupied cells are skipped and so never enqueued — and
consequently `validate_layout` lists every shelf whose position differs from
all entry points as unreachable and returns `valid = false` for any layout
containing such a shelf. -/
theorem claim_C6_occupied_goal (st : AdvOpt.OptState) (cache : AdvOpt.RCache)
    (hok : AdvOpt.RCacheOK st cache) :
    (∀ start goal : Pos, start ≠ goal →
      AdvOpt.is_position_occupied st goal = true →
      (AdvOpt.is_reachable st cache start goal).1 = false) ∧
    (∀ s ∈ st.shelves, (∀ e ∈ st.entry_points, e ≠ s.position) →
      s.position ∈ (AdvOpt.validate_layout st cache).1.unreachable_shelves ∧
      (AdvOpt.validate_layout st cache).1.valid = false) := by
  constructor
  · intro start goal hne hocc
    cases hx : (AdvOpt.is_reachable st cache start goal).1
    · rfl
    · exfalso
      have hfr := ((AdvOpt.is_reachable_spec st cache start goal hok).1).mp hx
      rcases hfr.target_free with rfl | ⟨_, hfree⟩
      · exact hne rfl
      · rw [hocc] at hfree
        cases hfree
  · intro s hs hne
    have hocc := AdvOpt.shelf_position_occupied hs
    have hmem := AdvOpt.unreachableShelvesFold_mem st st.shelves cache hok
      s hs hocc hne
    have hnimp : (AdvOpt.unreachableShelvesFold st st.shelves cache).1 ≠ [] := by
      intro hnil
      rw [hnil] at hmem
      cases hmem
    constructor
    · unfold AdvOpt.validate_layout
      dsimp only
      exact hmem
    · unfold AdvOpt.validate_layout
      dsimp only
      simp [hnimp]

/-- Witness for C6: on a 2x2 grid with entry `(0,0)` and one shelf at
`(1,1)`, the shelf cell is unreachable and the layout is invalid. -/
theorem claim_C6_witness :
    (AdvOpt.is_reachable ⟨2, 2, [(0,0)], [⟨(1,1), "a"⟩], [], []⟩
        AdvOpt.RCache.empty (0,0) (1,1)).1 = false ∧
    ((1,1) : Pos) ∈ (AdvOpt.validate_layout ⟨2, 2, [(0,0)], [⟨(1,1), "a"⟩], [], []⟩
        AdvOpt.RCache.empty).1.unreachable_shelves ∧
    (AdvOpt.validate_layout ⟨2, 2, [(0,0)], [⟨(1,1), "a"⟩], [], []⟩
        AdvOpt.RCache.empty).1.valid = false := by
  obtain ⟨h₁, h₂⟩ := claim_C6_occupied_goal ⟨2, 2, [(0,0)], [⟨(1,1), "a"⟩], [], []⟩
    AdvOpt.RCache.empty (AdvOpt.RCacheOK.empty _)
  refine ⟨h₁ (0,0) (1,1) (by decide) (by decide), ?_, ?_⟩
  · exact (h₂ ⟨(1,1), "a"⟩ (List.mem_cons_self _ _) (by decide)).1
  · exact (h₂ ⟨(1,1), "a"⟩ (List.mem_cons_self _ _) (by decide)).2

example : SimEngine.a_star (0,2) (2,2) (fun _ => 0) 5 5 = [(0,2),(1,2),(2,2)] := by decide

example : SimEngine.a_star (0,0) (1,1) (fun _ => 0) 2 2 = [(0,0),(0,1),(1,1)] := by decide

example : SimEngine.a_star (0,0) (0,1) (fun p => if p = (0,1) then 1 else 0) 1 2 = [(0,0)] := by decide

end WarehouseSim
